import Mathlib

/-!
Shallow embedding of the geometry engine of the `flowers` repository
(`src/math/area.rs`, `src/math/curve.rs`, `src/math/mod.rs`, `src/rand.rs`,
`src/mosaic.rs`) together with proofs about the specification claims.

Conventions:
  * Rust `i16` grid coordinates are embedded as `ℤ` (overflow does not matter
    for the verified properties and is checked/panicking in the source).
  * Rust `usize` quantities are embedded as `ℕ`.
  * Rust `f32`/`f64` values are embedded as exact rationals `ℚ`; the opaque
    trigonometric primitives (`sin`, `cos`, `asin`, `atan`, `Vec2::to_angle`)
    are abstract function parameters, since their bit-exact values are
    irrelevant to the structural claims.
  * Panics and `bail!` failures are embedded as `Except`/`Option` failures.
-/

namespace Flowers

/-- Embeds glam's `I16Vec2`: a 2D integer grid point. -/
structure I16Vec2 where
  x : ℤ
  y : ℤ
deriving DecidableEq, Repr

/-- Embeds `Range` from `src/math/area.rs`: a closed integer interval on one
scanline; `lo` is the source's `from`, `hi` the source's `to_inclusive`
(the `Range::new` assertion `from <= to_inclusive` is tracked separately as
`Range.WF`). -/
structure Range where
  lo : ℤ
  hi : ℤ
deriving DecidableEq, Repr

/-- The `Range::new` assertion: `from <= to_inclusive`. -/
def Range.WF (r : Range) : Prop := r.lo ≤ r.hi

instance : DecidablePred Range.WF := fun r => inferInstanceAs (Decidable (r.lo ≤ r.hi))

/-- Embeds `Line` from `src/math/area.rs`: the ranges of one scanline row. -/
structure Line where
  ranges : List Range
deriving DecidableEq, Repr

/-- Embeds `Line::min_x`: `ranges.first().map(|range| range.from())`. -/
def Line.min_x (l : Line) : Option ℤ := l.ranges.head?.map Range.lo

/-- Embeds `Line::max_x`: `ranges.last().map(|range| range.to_inclusive())`. -/
def Line.max_x (l : Line) : Option ℤ := l.ranges.getLast?.map Range.hi

/-- Embeds `Line::intersects`: bounding-extent overlap test; `false` whenever
either line is empty (the `unwrap_or(false)` of the source). -/
def Line.intersects (l other : Line) : Bool :=
  match l.min_x, l.max_x, other.min_x, other.max_x with
  | some min_x, some max_x, some other_min_x, some other_max_x =>
      decide (other_min_x ≤ max_x ∧ min_x ≤ other_max_x)
  | _, _, _, _ => false

/-- Embeds `Line::coverage` (summed into `Area::coverage`):
`(to_inclusive - from) as usize + 1` summed over the ranges. -/
def Line.coverage (l : Line) : ℕ :=
  (l.ranges.map (fun r => (r.hi - r.lo).toNat + 1)).sum

/-- Embeds `Area` from `src/math/area.rs`.  The source's `max_y` field is the
derived value `min_y + lines.len() - 1` (`Area::new`), kept as a function
here. -/
structure Area where
  lines : List Line
  min_y : ℤ
deriving DecidableEq, Repr

/-- The source's `max_y` field, as computed by `Area::new`. -/
def Area.max_y (a : Area) : ℤ := a.min_y + a.lines.length - 1

/-- Embeds `Area::line`: `None` outside the y-span, the dense row otherwise. -/
def Area.line (a : Area) (y : ℤ) : Option Line :=
  if y < a.min_y ∨ a.max_y < y then none
  else a.lines.get? (y - a.min_y).toNat

/-- The inclusive integer interval `[lo, hi]` as a list, in ascending order
(used to embed Rust `for y in lo..=hi` loops). -/
def intRows (lo hi : ℤ) : List ℤ :=
  (List.range (hi + 1 - lo).toNat).map (fun (i : ℕ) => lo + (i : ℤ))

/-- Embeds `Area::intersects`: y-span overlap plus a per-shared-row
`Line::intersects` scan. -/
def Area.intersects (a other : Area) : Bool :=
  if other.max_y < a.min_y ∨ a.max_y < other.min_y then false
  else
    (intRows (max a.min_y other.min_y) (min a.max_y other.max_y)).any
      (fun y => ((a.line y).getD ⟨[]⟩).intersects ((other.line y).getD ⟨[]⟩))

/-- Embeds `Area::coverage`. -/
def Area.coverage (a : Area) : ℕ := (a.lines.map Line.coverage).sum

/-- Embeds `Area::optimize`: trim the leading and trailing all-empty rows
(`position` / `rposition` of the first and last non-empty line), shifting
`min_y` by the number of dropped leading rows; `None` when every line is
empty. -/
def Area.optimize (a : Area) : Option Area :=
  let p : Line → Bool := fun l => l.ranges.isEmpty
  let lead := (a.lines.takeWhile p).length
  let trail := (a.lines.reverse.takeWhile p).length
  if lead = a.lines.length then none
  else some ⟨(a.lines.drop lead).take (a.lines.length - trail - lead), a.min_y + lead⟩

/-- Coverage of an optional area (`None` counts as zero, Section 4.4 of the
spec). -/
def coverageO : Option Area → ℕ
  | none => 0
  | some a => a.coverage

/-- Semantic covered-set of a range. -/
def Range.covers (r : Range) (x : ℤ) : Prop := r.lo ≤ x ∧ x ≤ r.hi

instance (r : Range) (x : ℤ) : Decidable (r.covers x) :=
  inferInstanceAs (Decidable (r.lo ≤ x ∧ x ≤ r.hi))

/-- Semantic covered-set of a line. -/
def Line.covers (l : Line) (x : ℤ) : Prop := ∃ r ∈ l.ranges, r.covers x

instance (l : Line) (x : ℤ) : Decidable (l.covers x) :=
  inferInstanceAs (Decidable (∃ r ∈ l.ranges, r.covers x))

/-- Semantic covered-set of an area at a row. -/
def Area.covers (a : Area) (y x : ℤ) : Prop :=
  ∃ l, a.line y = some l ∧ l.covers x

instance (a : Area) (y x : ℤ) : Decidable (a.covers y x) := by
  unfold Area.covers
  exact match a.line y with
  | none => isFalse (by simp)
  | some l => decidable_of_iff (l.covers x) (by simp)

/-- Covered-set of an optional area (`None` covers nothing). -/
def coversO : Option Area → ℤ → ℤ → Prop
  | none, _, _ => False
  | some a, y, x => a.covers y x

instance (o : Option Area) (y x : ℤ) : Decidable (coversO o y x) := by
  unfold coversO
  exact match o with
  | none => isFalse (by simp)
  | some a => inferInstanceAs (Decidable (a.covers y x))

/-!
Embedding of `find_inner_area` (`src/math/area.rs`, lines 215-372).
The mutable per-row vectors of the source become an `Array (List ℤ)` indexed
by `(y - min_y) as usize`; Rust `Vec::push` appends at the end.
-/

/-- One step of the anchor-collection walk of `find_inner_area`
(the `for i in 1..curve.len()` loop): state is `(last_y_diff, anchor_lines)`,
the input is the pair `(curve[i-1], curve[i])`. -/
def anchorStep (minY : ℤ) (st : ℤ × Array (List ℤ)) (pp : I16Vec2 × I16Vec2) :
    ℤ × Array (List ℤ) :=
  let lastYDiff := st.1
  let acc := st.2
  let previousPoint := pp.1
  let point := pp.2
  let yDiff := point.y - previousPoint.y
  if yDiff = 0 then (lastYDiff, acc)
  else
    let st1 : ℤ × Array (List ℤ) :=
      if lastYDiff ≠ yDiff then
        let index := (previousPoint.y - minY).toNat
        let acc1 :=
          match (acc.getD index []).getLast? with
          | some lastAnchor => acc.setD index ((acc.getD index []) ++ [lastAnchor])
          | none => acc
        (yDiff, acc1)
      else (lastYDiff, acc)
    let index := (point.y - minY).toNat
    (st1.1, st1.2.setD index ((st1.2.getD index []) ++ [point.x]))

/-- The anchor-collection block of `find_inner_area`: walk consecutive point
pairs, starting from `last_y_diff = 0` and one empty anchor list per row. -/
def collectAnchors (minY : ℤ) (yLen : ℕ) (curve : List I16Vec2) : Array (List ℤ) :=
  ((curve.zip curve.tail).foldl (anchorStep minY) (0, Array.mkArray yLen [])).2

/-- The origin parity fix of `find_inner_area`: `origin = curve[0]`; if the
anchor list of the origin's row has odd length, append the origin's
x-coordinate to it. -/
def originFix (minY : ℤ) (origin : I16Vec2) (anchorLines : Array (List ℤ)) :
    Array (List ℤ) :=
  let index := (origin.y - minY).toNat
  if index < anchorLines.size then
    let anchors := anchorLines.getD index []
    if anchors.length % 2 ≠ 0 then anchorLines.setD index (anchors ++ [origin.x])
    else anchorLines
  else anchorLines

/-- The per-row sorted x-coordinates of the skeleton (the shadowed `curve`
variable of `find_inner_area`); `sort_unstable` is embedded as sorting. -/
def curveRows (minY : ℤ) (yLen : ℕ) (curve : List I16Vec2) : Array (List ℤ) :=
  let lines := curve.foldl
    (fun (arr : Array (List ℤ)) p =>
      let index := (p.y - minY).toNat
      arr.setD index ((arr.getD index []) ++ [p.x]))
    (Array.mkArray yLen [])
  lines.map (List.insertionSort (· ≤ ·))

/-- Position of the first occurrence of `x` in a list (Rust
`iter().position(|&v| v == x)`). -/
def posFrom (x : ℤ) : List ℤ → Option ℕ
  | [] => none
  | v :: vs => if v = x then some 0 else (posFrom x vs).map (· + 1)

/-- Rust `line.iter().skip(off).position(|&v| v == x).map(|i| i + off)`. -/
def positionFrom (line : List ℤ) (off : ℕ) (x : ℤ) : Option ℕ :=
  (posFrom x (line.drop off)).map (· + off)

/-- The inward trim loop of `push_range` that walks up from `x1`
(`for i in (x1_index + 1)..x2_index`): the input list holds the visited
values `line[i]`; returns `(actual_x1, x1_index)`. -/
def trimUpGo : List ℤ → ℤ → ℕ → ℤ × ℕ
  | [], actualX1, x1Index => (actualX1, x1Index)
  | v :: vs, actualX1, x1Index =>
    if v - actualX1 > 1 then (actualX1, x1Index)
    else trimUpGo vs v (x1Index + 1)

/-- The inward trim loop of `push_range` that walks down from `x2`
(`while i > x1_index` with `i` descending from `x2_index - 1`): the input
list holds the visited values in visiting (descending-index) order. -/
def trimDownGo : List ℤ → ℤ → ℤ
  | [], actualX2 => actualX2
  | v :: vs, actualX2 =>
    if actualX2 - v > 1 then actualX2
    else trimDownGo vs v

/-- Embeds the `push_range` closure of `find_inner_area`: first component is
its `Option<usize>` result, second the (zero or one) emitted `Range`. -/
def pushRange (line : List ℤ) (x1 x2 : ℤ) (curveXOffset : ℕ) :
    Option ℕ × List Range :=
  if x2 - x1 ≤ 1 then (none, [])
  else
    match positionFrom line curveXOffset x1 with
    | none => (none, [])
    | some x1Index =>
      match positionFrom line x1Index x2 with
      | none => (none, [])
      | some x2Index =>
        let up := trimUpGo ((line.drop (x1Index + 1)).take (x2Index - (x1Index + 1))) x1 x1Index
        let actualX1 := up.1
        let x1Index1 := up.2
        let actualX2 :=
          if x2Index ≠ 0 then
            trimDownGo (((line.drop (x1Index1 + 1)).take (x2Index - 1 - x1Index1)).reverse) x2
          else x2
        (some x2Index,
          if actualX2 - actualX1 > 1 then [⟨actualX1 + 1, actualX2 - 1⟩] else [])

/-- The `while anchor_index < anchors.len() - 1` pairing loop of
`find_inner_area`, threading `curve_x_offset`. -/
def rowGo (line : List ℤ) : List ℤ → ℕ → List Range
  | a :: b :: rest, curveXOffset =>
    let pr := pushRange line a b curveXOffset
    pr.2 ++ rowGo line rest (pr.1.getD curveXOffset)
  | _, _ => []

/-- The per-row range assembly of `find_inner_area`: rows with at most one
anchor are skipped; an odd anchor count re-pairs the last two anchors with a
fresh offset of 0. -/
def rowRanges (line : List ℤ) (anchors : List ℤ) : List Range :=
  if anchors.length ≤ 1 then []
  else
    rowGo line anchors 0 ++
      (if anchors.length % 2 ≠ 0 then
        (pushRange line (anchors.getD (anchors.length - 2) 0)
          (anchors.getD (anchors.length - 1) 0) 0).2
      else [])

/-- Embeds `find_inner_area` (`src/math/area.rs`). -/
def find_inner_area (curve : List I16Vec2) : Option Area :=
  if curve.length ≤ 1 then none
  else
    match curve with
    | [] => none
    | origin :: _ =>
      let minY := (curve.map I16Vec2.y).foldl min origin.y
      let maxY := (curve.map I16Vec2.y).foldl max origin.y
      let yLen := (maxY - minY).toNat + 1
      let anchorLines :=
        (originFix minY origin (collectAnchors minY yLen curve)).map
          (List.insertionSort (· ≤ ·))
      let curveLines := curveRows minY yLen curve
      let lines := (List.range yLen).map (fun i =>
        Line.mk (rowRanges (curveLines.getD i []) (anchorLines.getD i [])))
      (Area.mk lines minY).optimize

/-!
Embedding of `cull` (`src/math/area.rs`, lines 374-470).  The two `while`
loops (the per-row sweep and the inner range merge) are embedded with an
explicit fuel argument that `cull` instantiates with an exact upper bound on
the number of iterations, so that both stay kernel-computable; the
`cullRangesF_fuel` / `cullGoF_fuel` lemmas below show the fuel is
irrelevant once sufficient.
-/

/-- The inner range-merge loop of `cull` (over `back_line_index` /
`front_line_index`), with fuel.  The first list is the back line's remaining
ranges, the second the front line's; when the front ranges are exhausted the
remaining back ranges are appended unchanged (the trailing
`back_line.iter().skip(back_line_index)` push). -/
def cullRangesF : ℕ → List Range → List Range → List Range
  | _, [], _ => []
  | _, b :: bs, [] => b :: bs
  | 0, _ :: _, _ :: _ => []
  | fuel + 1, b :: bs, f :: fs =>
    if b.hi < f.lo then
      -- (...)___[...] : back range entirely before the front range
      b :: cullRangesF fuel bs (f :: fs)
    else if f.hi < b.lo then
      -- [...]___(...) : front range entirely before the back range
      cullRangesF fuel (b :: bs) fs
    else
      (if b.lo < f.lo then [⟨b.lo, f.lo - 1⟩] else []) ++
      (if f.hi < b.hi then
        ⟨f.hi + 1, b.hi⟩ :: cullRangesF fuel bs fs
      else
        cullRangesF fuel bs (f :: fs))

/-- The inner range merge of `cull` with its exact fuel bound. -/
def cullRanges (bs fs : List Range) : List Range :=
  cullRangesF (bs.length + fs.length) bs fs

/-- The body of the `Ordering::Equal` arm of `cull` for one shared row. -/
def cullEqLine (backLine frontLine : Line) : Line :=
  if backLine.intersects frontLine then ⟨cullRanges backLine.ranges frontLine.ranges⟩
  else backLine

/-- The trailing `for y in back_y..=back_area.max_y()` loop of `cull`: the
remaining back rows, copied unchanged. -/
def backTail (back : Area) (backY : ℤ) : List Line :=
  (intRows backY back.max_y).map (fun y => (back.line y).getD ⟨[]⟩)

/-- The row sweep (`while back_y <= ... && front_y <= ...`) of `cull`, with
fuel.  Every iteration of the source loop either assigns `visible_lines`
at `back_y` and advances `back_y` (possibly with `front_y`), or advances
`front_y` alone; since the assigned rows are exactly `back_y, back_y+1, …`
in order, the sweep is embedded as returning the list of assigned lines for
the rows `back_y ..= back_area.max_y()` (rows of the visible array outside
that span keep their initial empty line, see `cull`). -/
def cullGoF (back front : Area) : ℕ → ℤ → ℤ → List Line
  | fuel, backY, frontY =>
    if backY ≤ back.max_y ∧ frontY ≤ front.max_y then
      match fuel with
      | 0 => []
      | fuel + 1 =>
        let backLine := (back.line backY).getD ⟨[]⟩
        let frontLine := (front.line frontY).getD ⟨[]⟩
        if backY = frontY then
          if backLine.intersects frontLine then
            Line.mk (cullRanges backLine.ranges frontLine.ranges) ::
              cullGoF back front fuel (backY + 1) (frontY + 1)
          else
            backLine :: cullGoF back front fuel (backY + 1) frontY
        else if frontY < backY then
          cullGoF back front fuel backY (frontY + 1)
        else
          backLine :: cullGoF back front fuel (backY + 1) frontY
    else
      backTail back backY

/-- Embeds `cull` (`src/math/area.rs`): `visible_lines` spans
`[min_y, max_y]` and starts all-empty; the sweep fills the back rows; the
result is `Area::new(visible_lines, min_y).optimize()`. -/
def cull (back front : Area) : Option Area :=
  let minY := min back.min_y front.min_y
  let maxY := max back.max_y front.max_y
  let startFrontY := max front.min_y back.min_y
  let fuel :=
    (back.max_y + 1 - back.min_y).toNat + (front.max_y + 1 - startFrontY).toNat
  let culled := cullGoF back front fuel back.min_y startFrontY
  let visible : List Line :=
    List.replicate (back.min_y - minY).toNat ⟨[]⟩ ++ culled ++
      List.replicate (maxY - back.max_y).toNat ⟨[]⟩
  (Area.mk visible minY).optimize

/-!
Embedding of `interpolate` (`src/math/mod.rs`) and of the `f32` helpers it
relies on.  Rust's `f32::round` rounds half-way cases away from zero.
-/

/-- Rust `f32::round` on an exact rational value: round to the nearest
integer, half-way cases away from zero. -/
def roundAway (q : ℚ) : ℤ :=
  if 0 ≤ q then ⌊q + 1 / 2⌋ else -⌊-q + 1 / 2⌋

/-- A 2D point with exact-rational coordinates (embeds glam's `Vec2`). -/
structure Vec2 where
  x : ℚ
  y : ℚ
deriving DecidableEq, Repr

/-- The intermediate grid points inserted by `interpolate` between
`previous_point` and `point` (the `while step <= steps` loop): for the
axis-max delta `steps`, the point at `step = j + 1` is
`previous_point + (diff * (step / steps)).round()`. -/
def segmentPoints (previousPoint point : I16Vec2) : List I16Vec2 :=
  let dx := point.x - previousPoint.x
  let dy := point.y - previousPoint.y
  let steps : ℕ := max dx.natAbs dy.natAbs
  (List.range steps).map (fun (j : ℕ) =>
    let progress : ℚ := ((j : ℚ) + 1) / (steps : ℚ)
    ⟨previousPoint.x + roundAway (dx * progress),
     previousPoint.y + roundAway (dy * progress)⟩)

/-- The `for i in 1..points.len()` loop of `interpolate`. -/
def interpolateGo (previousPoint : I16Vec2) : List I16Vec2 → List I16Vec2
  | [] => []
  | point :: rest => segmentPoints previousPoint point ++ interpolateGo point rest

/-- Embeds `interpolate` (`src/math/mod.rs`): the first point followed by the
gap-filled walk over consecutive pairs. -/
def interpolate (points : List I16Vec2) : List I16Vec2 :=
  match points with
  | [] => []
  | p0 :: rest => p0 :: interpolateGo p0 rest

/-!
Embedding of `src/math/curve.rs` (`eval_polar`, `scale`, `merge`) and of
`normalize` (`src/math/mod.rs`).  The opaque `f32` primitives are abstract
parameters: `cosF`/`sinF` (used by `to_cartesian` and `Mat2::from_angle`),
`toAngleF` (`Vec2::to_angle`, i.e. `atan2(y, x)`), and the `trig_func` /
`arc_trig_func` pair passed by the caller.
-/

/-- Failure modes of `eval_polar`: its two `assert!`s and the capacity-guard
`panic!`. -/
inductive PolarError where
  | invalidParam : PolarError
  | lengthOverflow : PolarError
deriving DecidableEq, Repr

/-- Rust `usize::MAX` on a 64-bit platform. -/
def usizeMax : ℕ := 2 ^ 64 - 1

/-- Embeds `to_cartesian` (`src/math/mod.rs`) with abstract `cos`/`sin`. -/
def to_cartesian (cosF sinF : ℚ → ℚ) (radius theta : ℚ) : Vec2 :=
  ⟨radius * cosF theta, radius * sinF theta⟩

/-- Embeds `Mat2::from_angle(angle).mul_vec2(v)` with abstract `cos`/`sin`. -/
def rotateBy (cosF sinF : ℚ → ℚ) (angle : ℚ) (v : Vec2) : Vec2 :=
  ⟨cosF angle * v.x - sinF angle * v.y, sinF angle * v.x + cosF angle * v.y⟩

/-- Embeds `eval_polar` (`src/math/curve.rs`): asserts on `k` and `step`,
computes the clamped sample count with its `usize` capacity guard, samples
`to_cartesian(trig_func(theta * k), theta)` at `theta = i * step`, rotates so
the last point's angle becomes `angle`, and finally negates the y-coordinate
of every point when `mirror` is set. -/
def eval_polar (cosF sinF : ℚ → ℚ) (toAngleF : Vec2 → ℚ)
    (trigFunc arcTrigFunc : ℚ → ℚ) (k step angle : ℚ) (mirror : Bool) :
    Except PolarError (List Vec2) :=
  if ¬ (0 < k ∧ 0 < step) then .error .invalidParam
  else
    let float : ℚ := max ((arcTrigFunc 1 / k) / step) 0
    if (usizeMax : ℚ) < float then .error .lengthOverflow
    else
      let length : ℕ := ⌊float⌋.toNat
      if length = 0 then .ok []
      else
        let curve := (List.range length).map (fun (i : ℕ) =>
          let theta : ℚ := (i : ℚ) * step
          to_cartesian cosF sinF (trigFunc (theta * k)) theta)
        let lastPointAngle := toAngleF (curve.getLast?.getD ⟨0, 0⟩)
        let rotated := curve.map (rotateBy cosF sinF (angle - lastPointAngle))
        .ok (if mirror then rotated.map (fun p => ⟨p.x, -p.y⟩) else rotated)

/-- Embeds `normalize` (`src/math/mod.rs`) at type `ℚ`. -/
def normalize (value oldMin oldMax newMin newMax : ℚ) : ℚ :=
  newMin + (value - oldMin) * (newMax - newMin) / (oldMax - oldMin)

/-- Embeds `scale` (`src/math/curve.rs`): multiply by the factor, round each
coordinate (`Vec2::round` is componentwise `f32::round`), and drop a point
equal to the previously kept point. -/
def scalePoint (factor : ℕ) (p : Vec2) : I16Vec2 :=
  ⟨roundAway (p.x * (factor : ℚ)), roundAway (p.y * (factor : ℚ))⟩

/-- The dedup loop of `scale` (`for point in curve.iter().skip(1)`). -/
def scaleGo (factor : ℕ) (lastKept : I16Vec2) : List Vec2 → List I16Vec2
  | [] => []
  | p :: rest =>
    let scaled := scalePoint factor p
    if scaled = lastKept then scaleGo factor lastKept rest
    else scaled :: scaleGo factor scaled rest

/-- Embeds `scale` (`src/math/curve.rs`); the `factor >= 1` assertion is a
precondition of the callers (radius is at least `MIN_RADIUS`). -/
def scale (curve : List Vec2) (factor : ℕ) : List I16Vec2 :=
  match curve with
  | [] => []
  | p :: rest =>
    let first := scalePoint factor p
    first :: scaleGo factor first rest

/-- Embeds `MergeMode` (`src/math/curve.rs`). -/
inductive MergeMode where
  | zigZag : MergeMode
  | origin : I16Vec2 → MergeMode

/-- The `ZigZag` arm of `merge`: alternate forward and reversed fragments. -/
def mergeZigZag (head : Bool) : List (List I16Vec2) → List I16Vec2
  | [] => []
  | c :: cs => (if head then c else c.reverse) ++ mergeZigZag (!head) cs

/-- Embeds `merge` (`src/math/curve.rs`). -/
def merge (curves : List (List I16Vec2)) (mode : MergeMode) : List I16Vec2 :=
  match mode with
  | .zigZag => mergeZigZag true curves
  | .origin origin => (curves.map (fun c => c ++ [origin])).flatten

/-!
Embedding of `RestorableRng` (`src/rand.rs`) and of the geometric part of
`random_mosaic` / `random_mosaic_part` (`src/mosaic.rs`).  The third-party
`ChaCha8Rng` delegate is an abstract state type `σ` with an abstract
seeding function and step function; every `Rng` draw consumes the delegate
through `next` and leaves the stored `seed` untouched, exactly as the
`RngCore` forwarding impls do.  The color/noise collaborators consumed after
the geometry are outside the engine (spec Section 1) and are not modelled.
-/

/-- Embeds `RestorableRng`: the `ChaCha8Rng` delegate (abstract state `σ`)
plus the remembered seed. -/
structure RestorableRng (σ : Type) where
  delegate : σ
  seed : ℕ

/-- Embeds `RestorableRng::new`: seed the delegate, remember the seed.
`seedFn` abstracts `ChaCha8Rng::seed_from_u64`. -/
def RestorableRng.new (seedFn : ℕ → σ) (seed : ℕ) : RestorableRng σ :=
  ⟨seedFn seed, seed⟩

/-- Embeds `RestorableRng::restore`: `Self::new(self.seed)`. -/
def RestorableRng.restore (seedFn : ℕ → σ) (r : RestorableRng σ) : RestorableRng σ :=
  RestorableRng.new seedFn r.seed

/-- One raw draw from the delegate (`RngCore::next_u32` forwarding): only the
delegate advances, the seed is untouched. -/
def RestorableRng.next (stepFn : σ → ℕ × σ) (r : RestorableRng σ) :
    ℕ × RestorableRng σ :=
  let (v, s) := stepFn r.delegate
  (v, ⟨s, r.seed⟩)

/-- The stream of the next `n` raw draws. -/
def RestorableRng.stream (stepFn : σ → ℕ × σ) (r : RestorableRng σ) : ℕ → List ℕ
  | 0 => []
  | n + 1 =>
    let (v, r1) := r.next stepFn
    v :: r1.stream stepFn n

/-- The rng after `n` raw draws. -/
def RestorableRng.advance (stepFn : σ → ℕ × σ) (r : RestorableRng σ) : ℕ → RestorableRng σ
  | 0 => r
  | n + 1 => ((r.next stepFn).2).advance stepFn n

/-- Abstract decoders turning one raw draw into the typed values the mosaic
generator samples (`gen_bool`, `gen_range` on `f32` intervals and on
integer ranges); they make the model parametric in the rand crate's exact
decoding arithmetic while keeping every draw a function of the delegate
stream. -/
structure RngModel (σ : Type) where
  seedFn : ℕ → σ
  stepFn : σ → ℕ × σ
  decodeBool : ℕ → Bool
  decodeRange : ℚ → ℚ → ℕ → ℚ

/-- `gen_bool(0.5)` in the model. -/
def RngModel.genBool (m : RngModel σ) (r : RestorableRng σ) : Bool × RestorableRng σ :=
  let (v, r1) := r.next m.stepFn
  (m.decodeBool v, r1)

/-- `gen_range(lo..=hi)` on floats in the model. -/
def RngModel.genRange (m : RngModel σ) (lo hi : ℚ) (r : RestorableRng σ) :
    ℚ × RestorableRng σ :=
  let (v, r1) := r.next m.stepFn
  (m.decodeRange lo hi v, r1)

/-- The opaque `f32` trigonometric primitives used by `random_mosaic_part`,
as one parameter pack: `cos`/`sin`, `Vec2::to_angle`, `sin`/`asin` and
`tan`/`atan` for the two polar functions, and the `f32` constant `PI`. -/
structure TrigModel where
  cosF : ℚ → ℚ
  sinF : ℚ → ℚ
  toAngleF : Vec2 → ℚ
  sinTrig : ℚ → ℚ
  asinTrig : ℚ → ℚ
  tanTrig : ℚ → ℚ
  atanTrig : ℚ → ℚ
  piQ : ℚ

/-- Embeds `gen_step` (inner fn of `random_mosaic_part`). -/
def genStep (m : RngModel σ) (k minK maxK : ℚ) (r : RestorableRng σ) :
    ℚ × RestorableRng σ :=
  let minStep : ℚ := 1 / 1000
  let maxStep : ℚ := 10
  let maxStep := normalize k minK maxK maxStep (maxStep / 2)
  m.genRange minStep maxStep r

/-- Embeds the geometry of `random_mosaic_part` (`src/mosaic.rs`): sample
`mirror`, `angle`, `k`, choose the `sin` or `tan` polar function, sample the
angular step, and evaluate; an empty evaluation result is the `bail!`
failure. -/
def random_mosaic_part (tm : TrigModel) (m : RngModel σ) (r : RestorableRng σ) :
    Except PolarError (List Vec2) × RestorableRng σ :=
  let (mirror, r) := m.genBool r
  let (angle, r) := m.genRange (-tm.piQ) tm.piQ r
  let kLo : ℚ := 1 / 10000
  let kHi : ℚ := 1 / 100
  let (k, r) := m.genRange kLo kHi r
  let (useSin, r) := m.genBool r
  let (part, r) :=
    if useSin then
      let (step, r) := genStep m k kLo kHi r
      (eval_polar tm.cosF tm.sinF tm.toAngleF tm.sinTrig tm.asinTrig k step angle mirror, r)
    else
      let k := k / 2
      let (step, r) := genStep m k (kLo / 2) (kHi / 2) r
      (eval_polar tm.cosF tm.sinF tm.toAngleF tm.tanTrig tm.atanTrig k step angle mirror, r)
  match part with
  | .error e => (.error e, r)
  | .ok p => if p.isEmpty then (.error .invalidParam, r) else (.ok p, r)

/-- Embeds the geometric pipeline of `random_mosaic` (`src/mosaic.rs`): the
radius assertion, two `random_mosaic_part` draws, `scale` to the radius,
`merge` in `Origin` mode at `I16Vec2::ZERO`, `interpolate`, the empty-skeleton
bail, and `find_inner_area`; the coloring collaborators that follow are
outside the geometry engine.  Returns the skeleton, its inner area and the
rng state after the geometry draws. -/
def random_mosaic (tm : TrigModel) (m : RngModel σ) (radius : ℕ)
    (r : RestorableRng σ) :
    Except PolarError (List I16Vec2 × Option Area) × RestorableRng σ :=
  if ¬ (8 ≤ radius ∧ radius ≤ 2 ^ 14 - 2) then (.error .invalidParam, r)
  else
    let (part1, r) := random_mosaic_part tm m r
    match part1 with
    | .error e => (.error e, r)
    | .ok p1 =>
      let (part2, r) := random_mosaic_part tm m r
      match part2 with
      | .error e => (.error e, r)
      | .ok p2 =>
        let skeleton := interpolate (merge [scale p1 radius, scale p2 radius] (.origin ⟨0, 0⟩))
        if skeleton.isEmpty then (.error .invalidParam, r)
        else (.ok (skeleton, find_inner_area skeleton), r)

/-- The gap relation of the Line invariant on consecutive ranges. -/
def RangeGap (r s : Range) : Prop := r.hi < s.lo - 1

instance (r s : Range) : Decidable (RangeGap r s) :=
  inferInstanceAs (Decidable (r.hi < s.lo - 1))

/-- A kernel-reducible decision procedure for the gap chain (the instance
Mathlib derives by tactics does not evaluate inside `decide`). -/
def chainRangeGapDec : ∀ (a : Range) (l : List Range), Decidable (List.Chain RangeGap a l)
  | _, [] => isTrue List.Chain.nil
  | a, b :: l =>
    haveI : Decidable (List.Chain RangeGap b l) := chainRangeGapDec b l
    decidable_of_iff (RangeGap a b ∧ List.Chain RangeGap b l) List.chain_cons.symm

def chainRangeGapDec' : ∀ (l : List Range), Decidable (List.Chain' RangeGap l)
  | [] => isTrue trivial
  | a :: l => chainRangeGapDec a l

/-- The Line invariant of the spec (Section 3, "Line"): ranges sorted
ascending and pairwise separated by at least 2, each range well-formed. -/
def Line.Inv (l : Line) : Prop :=
  List.Chain' RangeGap l.ranges ∧ ∀ r ∈ l.ranges, r.WF

instance (l : Line) : Decidable l.Inv :=
  @instDecidableAnd _ _ (chainRangeGapDec' l.ranges) (List.decidableBAll _ l.ranges)

/-- The Line invariant over every row of an area. -/
def Area.Inv (a : Area) : Prop := ∀ l ∈ a.lines, l.Inv

instance (a : Area) : Decidable a.Inv :=
  inferInstanceAs (Decidable (∀ l ∈ a.lines, l.Inv))

/-- The predicate `optimize` trims by. -/
def emptyLine (l : Line) : Bool := l.ranges.isEmpty

/-- The 8-connectivity adjacency of the claim: both coordinate deltas have
magnitude at most one. -/
def chebAdj (p q : I16Vec2) : Prop :=
  (q.x - p.x).natAbs ≤ 1 ∧ (q.y - p.y).natAbs ≤ 1

/-- The point of the extended interpolation segment at step `m`
(`m = 0` is the previous point itself, `m = steps` is the target point). -/
def segPt (prev pt : I16Vec2) (m : ℕ) : I16Vec2 :=
  ⟨prev.x + roundAway (((pt.x - prev.x : ℤ) : ℚ) * (m : ℚ) /
      ((max (pt.x - prev.x).natAbs (pt.y - prev.y).natAbs : ℕ) : ℚ)),
   prev.y + roundAway (((pt.y - prev.y : ℤ) : ℚ) * (m : ℚ) /
      ((max (pt.x - prev.x).natAbs (pt.y - prev.y).natAbs : ℕ) : ℚ))⟩

/-- The pairing loop together with the odd-leftover re-pairing, fused into
one recursion (`rowAll line as off` equals `rowRanges`' loop output for the
same anchors, see `rowRanges_eq_rowAll`): the three-element case is the last
regular pair followed by the leftover pair over the last two anchors. -/
def rowAll (line : List ℤ) : List ℤ → ℕ → List Range
  | a :: b :: c :: [], off => (pushRange line a b off).2 ++ (pushRange line b c 0).2
  | a :: b :: rest, off =>
    let pr := pushRange line a b off
    pr.2 ++ rowAll line rest (pr.1.getD off)
  | _, _ => []

/-- The line `cull` assigns to back row `y`: the back row unchanged when the
front has no row there, otherwise the `Ordering::Equal` arm. -/
def cullRow (back front : Area) (y : ℤ) : Line :=
  match front.line y with
  | none => (back.line y).getD ⟨[]⟩
  | some fl => cullEqLine ((back.line y).getD ⟨[]⟩) fl

def rangesCovered : List Range → Finset ℤ
  | [] => ∅
  | r :: rs => Finset.Icc r.lo r.hi ∪ rangesCovered rs

/-!
Helper lemmas.
-/

/-- Reading an `Array.setD` cell: the written value at the written (in-bounds)
index, the old value elsewhere. -/
theorem Array_getD_setD (arr : Array α) (j : ℕ) (v d : α) (i : ℕ) :
    (arr.setD j v).getD i d = if i = j ∧ j < arr.size then v else arr.getD i d := by
  by_cases hj : j < arr.size
  · by_cases hij : i = j
    · subst hij
      rw [if_pos ⟨rfl, hj⟩]
      unfold Array.setD Array.getD
      rw [dif_pos hj]
      simp only [Array.size_set, Array.get_eq_getElem]
      rw [dif_pos hj, Array.getElem_set, if_pos rfl]
    · rw [if_neg (fun h => hij h.1)]
      unfold Array.setD Array.getD
      rw [dif_pos hj]
      simp only [Array.size_set, Array.get_eq_getElem]
      split
      · rw [Array.getElem_set, if_neg (fun h => hij h.symm)]
      · rfl
  · rw [if_neg (fun h => hj h.2)]
    unfold Array.setD
    rw [dif_neg hj]

/-!
Claim C10: `find_inner_area` on fewer than two points.
-/

/-- Claim C10: for every input curve with fewer than two points (including
the empty curve), `find_inner_area` returns `None` rather than an `Area`
(and, being total here, rather than panicking). -/
theorem c10_small_curve_gives_none (curve : List I16Vec2) (h : curve.length < 2) :
    find_inner_area curve = none := by
  unfold find_inner_area
  have h1 : curve.length ≤ 1 := by omega
  simp [h1]

/-- Witness for C10 at the empty curve and at a singleton curve. -/
theorem c10_small_curve_gives_none_witness :
    find_inner_area [] = none ∧ find_inner_area [⟨3, 3⟩] = none :=
  ⟨c10_small_curve_gives_none [] (by decide),
   c10_small_curve_gives_none [⟨3, 3⟩] (by decide)⟩

/-!
Claim C7: the synthetic parity anchor.  The source appends the synthetic
anchor on the row of `curve[0]` (called `origin` in the source) with the
x-coordinate `curve[0].x`, not on the row `y = 0` with x-coordinate `0`;
the two coincide only when the curve starts at the coordinate origin.
-/

/-- Claim C7 (amended): after anchor collection, exactly the row containing
the curve's first point receives one extra synthetic anchor—whose value is
the first point's x-coordinate—if and only if that row's anchor count is
odd; every other row's anchor list is unchanged.  (In the mosaic pipeline
the first point is the coordinate origin `(0, 0)`, in which case this row is
`y = 0` and the anchor is `0` as the original claim states.) -/
theorem c7_origin_row_parity_anchor (minY : ℤ) (origin : I16Vec2)
    (arr : Array (List ℤ)) (i : ℕ) (hi : i < arr.size) :
    (originFix minY origin arr).getD i [] =
      (if i = (origin.y - minY).toNat ∧ (arr.getD i []).length % 2 = 1 then
        arr.getD i [] ++ [origin.x]
      else arr.getD i []) := by
  by_cases hieq : i = (origin.y - minY).toNat
  · have hsz : (origin.y - minY).toNat < arr.size := hieq ▸ hi
    by_cases hodd : (arr.getD i []).length % 2 = 1
    · rw [if_pos ⟨hieq, hodd⟩]
      unfold originFix
      rw [if_pos hsz, if_pos (show ¬ (arr.getD ((origin.y - minY).toNat) []).length % 2 = 0 by
        rw [← hieq]; omega)]
      rw [Array_getD_setD, if_pos ⟨hieq, hsz⟩, ← hieq]
    · rw [if_neg (fun h => hodd h.2)]
      unfold originFix
      rw [if_pos hsz]
      rw [if_neg (show ¬ ¬ (arr.getD ((origin.y - minY).toNat) []).length % 2 = 0 by
        rw [← hieq]; omega)]
  · rw [if_neg (fun h => hieq h.1)]
    unfold originFix
    dsimp only
    split
    · split
      · rw [Array_getD_setD, if_neg (fun h => hieq h.1)]
        simp [Array.getD, hi]
      · rfl
    · rfl

/-- Witness for C7's amended statement at a concrete anchor array. -/
theorem c7_origin_row_parity_anchor_witness :
    (originFix 3 ⟨5, 3⟩ #[[7], [6, 6]]).getD 0 [] = [7, 5] ∧
    (originFix 3 ⟨5, 3⟩ #[[7], [6, 6]]).getD 1 [] = [6, 6] := by
  constructor
  · rw [c7_origin_row_parity_anchor 3 ⟨5, 3⟩ #[[7], [6, 6]] 0 (by decide)]
    decide
  · rw [c7_origin_row_parity_anchor 3 ⟨5, 3⟩ #[[7], [6, 6]] 1 (by decide)]
    decide

/-- Counterexample to C7 as stated: for the curve `[(5,3), (6,4), (7,3)]`
(first point `(5, 3)`, rows `y = 3, 4` only, `min_y = 3`), anchor collection
yields `[7]` on row `y = 3` and `[6, 6]` on row `y = 4`; the parity fix then
appends the synthetic anchor `5` (the first point's x-coordinate, not `0`)
to row `y = 3` (not the row `y = 0`, which does not even exist here); so a
row other than `y = 0` receives a synthetic anchor, and its value is not
`0`. -/
theorem c7_counterexample :
    collectAnchors 3 2 [⟨5, 3⟩, ⟨6, 4⟩, ⟨7, 3⟩] = #[[7], [6, 6]] ∧
    originFix 3 ⟨5, 3⟩ (collectAnchors 3 2 [⟨5, 3⟩, ⟨6, 4⟩, ⟨7, 3⟩]) = #[[7, 5], [6, 6]] ∧
    (⟨5, 3⟩ : I16Vec2).y ≠ 0 ∧ (⟨5, 3⟩ : I16Vec2).x ≠ 0 := by
  refine ⟨?_, ?_, by decide, by decide⟩ <;> decide

/-!
Claim C6: the `mirror` flag of `eval_polar`.  The source negates the
y-coordinate (`point.y = -point.y`), not the x-coordinate.
-/

/-- Claim C6 (amended): for all parameters, the polar evaluator's result with
`mirror` set equals the result without `mirror` except that the
**y**-coordinate of every point is negated (failures are identical). -/
theorem c6_mirror_negates_y (cosF sinF : ℚ → ℚ) (toAngleF : Vec2 → ℚ)
    (trigFunc arcTrigFunc : ℚ → ℚ) (k step angle : ℚ) :
    eval_polar cosF sinF toAngleF trigFunc arcTrigFunc k step angle true =
      Except.map (List.map (fun p => Vec2.mk p.x (-p.y)))
        (eval_polar cosF sinF toAngleF trigFunc arcTrigFunc k step angle false) := by
  unfold eval_polar
  by_cases h1 : 0 < k ∧ 0 < step
  · simp only [if_neg (not_not_intro h1)]
    by_cases h2 : (usizeMax : ℚ) < max ((arcTrigFunc 1 / k) / step) 0
    · simp only [if_pos h2]
      rfl
    · simp only [if_neg h2]
      by_cases h3 : (⌊max ((arcTrigFunc 1 / k) / step) 0⌋).toNat = 0
      · simp only [if_pos h3]
        rfl
      · simp only [if_neg h3]
        rfl
  · simp only [if_pos h1]
    rfl

/-- Counterexample to C6 as stated: at `trig_func = id`,
`arc_trig_func ≡ 1`, `cos ≡ 1`, `sin ≡ 1`, `to_angle ≡ 0`, `k = 1`,
`step = 1/2`, `angle = 0`, mirroring does not negate the x-coordinates (the
second sample becomes `(0, -1)`, whereas x-negation would give `(0, 1)`). -/
theorem c6_counterexample :
    eval_polar (fun _ => 1) (fun _ => 1) (fun _ => 0) id (fun _ => 1) 1 (1 / 2) 0 true ≠
      Except.map (List.map (fun p => Vec2.mk (-p.x) p.y))
        (eval_polar (fun _ => 1) (fun _ => 1) (fun _ => 0) id (fun _ => 1) 1 (1 / 2) 0 false) := by
  have hmax : max ((((1 : ℚ)) / 1) / (1 / 2)) 0 = 2 := by norm_num
  have hguard : ¬ ((usizeMax : ℚ) < 2) := by
    rw [not_lt]
    unfold usizeMax
    norm_num
  have hfl2 : ⌊(2 : ℚ)⌋ = 2 := by norm_num
  have hfl : (⌊(2 : ℚ)⌋).toNat = 2 := by rw [hfl2]; rfl
  unfold eval_polar
  simp only [id, hmax, if_neg hguard, hfl]
  norm_num [List.range_succ, to_cartesian, rotateBy, Except.map, Vec2.mk.injEq]

/-!
Claim C5: the sample count of the polar evaluator.  The `f32` arithmetic is
embedded as exact rationals, so the capacity comparison against
`usize::MAX as f64` is against the exact value `usizeMax`.
-/

/-- Claim C5: for `k > 0` and `angularStep > 0` (and the inverse
trigonometric primitive nonnegative at 1, as `asin`/`atan` are), the polar
evaluator fails with the overflow error exactly when the computed length
`(inverseTrigFn(1.0)/k)/angularStep` exceeds `usize::MAX`; otherwise it
returns a curve of exactly `floor((inverseTrigFn(1.0)/k)/angularStep)`
samples, which is the empty curve—an `Ok` result signalling failure, not an
error—when that count is zero. -/
theorem c5_polar_sample_count (cosF sinF : ℚ → ℚ) (toAngleF : Vec2 → ℚ)
    (trigFunc arcTrigFunc : ℚ → ℚ) (k step angle : ℚ) (mirror : Bool)
    (hk : 0 < k) (hs : 0 < step) (ha : 0 ≤ arcTrigFunc 1) :
    (eval_polar cosF sinF toAngleF trigFunc arcTrigFunc k step angle mirror =
        .error .lengthOverflow ↔ (usizeMax : ℚ) < (arcTrigFunc 1 / k) / step) ∧
    (¬ (usizeMax : ℚ) < (arcTrigFunc 1 / k) / step →
      ∃ pts, eval_polar cosF sinF toAngleF trigFunc arcTrigFunc k step angle mirror = .ok pts ∧
        pts.length = (⌊(arcTrigFunc 1 / k) / step⌋).toNat ∧
        (⌊(arcTrigFunc 1 / k) / step⌋ = 0 → pts = [])) := by
  have hbound : 0 ≤ (arcTrigFunc 1 / k) / step :=
    div_nonneg (div_nonneg ha hk.le) hs.le
  have hmax : max ((arcTrigFunc 1 / k) / step) 0 = (arcTrigFunc 1 / k) / step :=
    max_eq_left hbound
  unfold eval_polar
  simp only [if_neg (not_not_intro (And.intro hk hs)), hmax]
  by_cases h2 : (usizeMax : ℚ) < (arcTrigFunc 1 / k) / step
  · simp only [if_pos h2]
    exact ⟨by simp [h2], fun hc => absurd h2 hc⟩
  · simp only [if_neg h2]
    refine ⟨?_, ?_⟩
    · by_cases h3 : (⌊(arcTrigFunc 1 / k) / step⌋).toNat = 0
      · simp only [if_pos h3]
        exact iff_of_false (by simp) h2
      · simp only [if_neg h3]
        exact iff_of_false (by simp) h2
    · intro _
      by_cases h3 : (⌊(arcTrigFunc 1 / k) / step⌋).toNat = 0
      · simp only [if_pos h3]
        exact ⟨[], rfl, by simp [h3], fun _ => rfl⟩
      · simp only [if_neg h3]
        cases mirror
        · exact ⟨_, rfl, by simp [Function.comp_def], fun h0 => absurd (by rw [h0]; rfl) h3⟩
        · exact ⟨_, rfl, by simp [Function.comp_def], fun h0 => absurd (by rw [h0]; rfl) h3⟩

/-- Witness for C5 at `arc_trig_func ≡ 1`, `k = 1`, `step = 1/2`. -/
theorem c5_polar_sample_count_witness :
    (eval_polar (fun _ => 1) (fun _ => 1) (fun _ => 0) id (fun _ => 1) 1 (1 / 2) 0 false =
        .error .lengthOverflow ↔ (usizeMax : ℚ) < ((fun (_ : ℚ) => (1 : ℚ)) 1 / 1) / (1 / 2)) ∧
    (¬ (usizeMax : ℚ) < ((fun (_ : ℚ) => (1 : ℚ)) 1 / 1) / (1 / 2) →
      ∃ pts, eval_polar (fun _ => 1) (fun _ => 1) (fun _ => 0) id (fun _ => 1) 1 (1 / 2) 0 false = .ok pts ∧
        pts.length = (⌊((fun (_ : ℚ) => (1 : ℚ)) 1 / 1) / (1 / 2)⌋).toNat ∧
        (⌊((fun (_ : ℚ) => (1 : ℚ)) 1 / 1) / (1 / 2)⌋ = 0 → pts = [])) :=
  c5_polar_sample_count (fun _ => 1) (fun _ => 1) (fun _ => 0) id (fun _ => 1) 1 (1 / 2) 0
    false one_pos one_half_pos zero_le_one

/-!
Generic takeWhile/dropWhile helper lemmas used to analyse `Area::optimize`.
-/

theorem dropWhile_head?_not {α : Type} (p : α → Bool) (l : List α) :
    ∀ x ∈ (l.dropWhile p).head?, p x = false := by
  intro x hx
  have h := List.head?_dropWhile_not p l
  rw [Option.mem_def] at hx
  rw [hx] at h
  exact h

theorem drop_length_takeWhile {α : Type} (p : α → Bool) (l : List α) :
    l.drop (l.takeWhile p).length = l.dropWhile p := by
  induction l with
  | nil => rfl
  | cons x xs ih =>
    by_cases hp : p x
    · rw [List.takeWhile_cons, if_pos hp, List.dropWhile_cons, if_pos hp,
        List.length_cons, List.drop_succ_cons, ih]
    · rw [List.takeWhile_cons, if_neg hp, List.dropWhile_cons, if_neg hp]
      rfl

theorem take_length_takeWhile {α : Type} (p : α → Bool) (l : List α) :
    l.take (l.takeWhile p).length = l.takeWhile p := by
  induction l with
  | nil => rfl
  | cons x xs ih =>
    by_cases hp : p x
    · rw [List.takeWhile_cons, if_pos hp, List.length_cons, List.take_succ_cons, ih]
    · rw [List.takeWhile_cons, if_neg hp]
      rfl

theorem takeWhile_append_of_dropWhile_ne {α : Type} (p : α → Bool) (xs ys : List α)
    (h : xs.dropWhile p ≠ []) : (xs ++ ys).takeWhile p = xs.takeWhile p := by
  induction xs with
  | nil => exact absurd rfl h
  | cons x xs ih =>
    by_cases hp : p x
    · rw [List.cons_append, List.takeWhile_cons, List.takeWhile_cons, if_pos hp, if_pos hp]
      rw [List.dropWhile_cons, if_pos hp] at h
      rw [ih h]
    · rw [List.cons_append, List.takeWhile_cons, List.takeWhile_cons, if_neg hp, if_neg hp]

theorem length_takeWhile_lt_of_dropWhile_ne {α : Type} (p : α → Bool) (l : List α)
    (h : l.dropWhile p ≠ []) : (l.takeWhile p).length < l.length := by
  have hlen : (l.takeWhile p).length + (l.dropWhile p).length = l.length := by
    rw [← List.length_append, List.takeWhile_append_dropWhile]
  have hpos : 0 < (l.dropWhile p).length := List.length_pos.mpr h
  omega

theorem head?_take_pos {α : Type} (l : List α) (k : ℕ) (hk : 0 < k) :
    (l.take k).head? = l.head? := by
  cases l with
  | nil => simp
  | cons x xs =>
    cases k with
    | zero => omega
    | succ k => simp

theorem revDropWhile_ne {α : Type} (p : α → Bool) (l : List α)
    (h : l.dropWhile p ≠ []) : (l.dropWhile p).reverse.dropWhile p ≠ [] := by
  intro hcontra
  have hallrev := List.dropWhile_eq_nil_iff.mp hcontra
  match hD0 : (l.dropWhile p).head? with
  | none => exact h (List.head?_eq_none_iff.mp hD0)
  | some d =>
    have hdf : p d = false := dropWhile_head?_not p l d (Option.mem_def.mpr hD0)
    have hdmem : d ∈ (l.dropWhile p).reverse :=
      List.mem_reverse.mpr (List.mem_of_mem_head? (Option.mem_def.mpr hD0))
    rw [hallrev d hdmem] at hdf
    cases hdf

theorem trail_takeWhile_eq {α : Type} (p : α → Bool) (l : List α)
    (h : l.dropWhile p ≠ []) :
    l.reverse.takeWhile p = (l.dropWhile p).reverse.takeWhile p := by
  conv_lhs => rw [← List.takeWhile_append_dropWhile p l]
  rw [List.reverse_append]
  exact takeWhile_append_of_dropWhile_ne p _ _ (revDropWhile_ne p l h)

/-!
A structural description of `Area::optimize`, from which the trim invariant,
coverage preservation and covered-set preservation all follow.
-/

/-- A line satisfies the trimming predicate iff it has no ranges. -/
theorem emptyLine_iff (l : Line) : emptyLine l = true ↔ l.ranges = [] :=
  List.isEmpty_iff

/-- Structural description of `Area::optimize`: either every line is empty
and the result is `None`, or the lines split as `T ++ kept ++ S` with `T`
and `S` all-empty, `kept` nonempty with non-empty first and last lines, and
the result keeps exactly `kept` with `min_y` shifted by `T.length`. -/
theorem optimize_decomp (a : Area) :
    (a.optimize = none ∧ ∀ l ∈ a.lines, l.ranges = []) ∨
    ∃ T kept S : List Line, a.lines = T ++ kept ++ S ∧ (∀ l ∈ T, l.ranges = []) ∧
      (∀ l ∈ S, l.ranges = []) ∧ kept ≠ [] ∧
      (∀ l ∈ kept.head?, l.ranges ≠ []) ∧ (∀ l ∈ kept.getLast?, l.ranges ≠ []) ∧
      a.optimize = some ⟨kept, a.min_y + T.length⟩ := by
  by_cases hall : a.lines.dropWhile emptyLine = []
  · left
    have hTeq : a.lines.takeWhile emptyLine = a.lines := by
      conv_rhs => rw [← List.takeWhile_append_dropWhile emptyLine a.lines]
      rw [hall, List.append_nil]
    refine ⟨?_, fun l hl => (emptyLine_iff l).mp (List.dropWhile_eq_nil_iff.mp hall l hl)⟩
    have hcond : (a.lines.takeWhile (fun l => l.ranges.isEmpty)).length = a.lines.length :=
      congrArg List.length hTeq
    unfold Area.optimize
    simp only [if_pos hcond]
  · right
    have hrevne : (a.lines.dropWhile emptyLine).reverse.dropWhile emptyLine ≠ [] :=
      revDropWhile_ne emptyLine a.lines hall
    have htrail_lt :
        ((a.lines.dropWhile emptyLine).reverse.takeWhile emptyLine).length <
          (a.lines.dropWhile emptyLine).length := by
      have := length_takeWhile_lt_of_dropWhile_ne emptyLine
        (a.lines.dropWhile emptyLine).reverse hrevne
      simpa using this
    set D := a.lines.dropWhile emptyLine with hD
    set t := (D.reverse.takeWhile emptyLine).length with ht
    set kpt := D.take (D.length - t) with hkpt
    set sfx := D.drop (D.length - t) with hsfx
    have hDsplit : D = kpt ++ sfx := (List.take_append_drop _ D).symm
    have hsplit : a.lines = a.lines.takeWhile emptyLine ++ D :=
      (List.takeWhile_append_dropWhile emptyLine a.lines).symm
    have hkptlen : kpt.length = D.length - t := by
      rw [hkpt, List.length_take]
      omega
    refine ⟨a.lines.takeWhile emptyLine, kpt, sfx, ?_, ?_, ?_, ?_, ?_, ?_, ?_⟩
    · rw [List.append_assoc, ← hDsplit]
      exact hsplit
    · exact fun l hl => (emptyLine_iff l).mp (List.mem_takeWhile_imp hl)
    · intro l hl
      have hrev : sfx.reverse = D.reverse.takeWhile emptyLine := by
        rw [hsfx, List.reverse_drop]
        have harith : D.length - (D.length - t) = t := by omega
        rw [harith, ht, take_length_takeWhile]
      have hmem : l ∈ sfx.reverse := List.mem_reverse.mpr hl
      rw [hrev] at hmem
      exact (emptyLine_iff l).mp (List.mem_takeWhile_imp hmem)
    · rw [← List.length_pos]
      omega
    · intro l hl
      have hhead : kpt.head? = D.head? := by
        rw [hkpt]
        exact head?_take_pos D (D.length - t) (by omega)
      rw [hhead] at hl
      have := dropWhile_head?_not emptyLine a.lines l hl
      intro hcontra
      rw [← emptyLine_iff] at hcontra
      rw [hcontra] at this
      cases this
    · intro l hl
      rw [List.getLast?_eq_head?_reverse] at hl
      have hrevkpt : kpt.reverse = D.reverse.dropWhile emptyLine := by
        rw [hkpt, List.reverse_take]
        have harith : D.length - (D.length - t) = t := by omega
        rw [harith, ht]
        exact drop_length_takeWhile emptyLine D.reverse
      rw [hrevkpt] at hl
      have := dropWhile_head?_not emptyLine D.reverse l hl
      intro hcontra
      rw [← emptyLine_iff] at hcontra
      rw [hcontra] at this
      cases this
    · have hlead_ne : (a.lines.takeWhile emptyLine).length ≠ a.lines.length :=
        Nat.ne_of_lt (length_takeWhile_lt_of_dropWhile_ne emptyLine a.lines hall)
      have htotal : a.lines.length = (a.lines.takeWhile emptyLine).length + D.length := by
        conv_lhs => rw [hsplit]
        rw [List.length_append]
      have htraileq : (a.lines.reverse.takeWhile emptyLine).length = t := by
        rw [trail_takeWhile_eq emptyLine a.lines hall]
      have hdrop : a.lines.drop (a.lines.takeWhile emptyLine).length = D :=
        drop_length_takeWhile emptyLine a.lines
      unfold Area.optimize
      show (if (a.lines.takeWhile emptyLine).length = a.lines.length then none
        else some (Area.mk
          ((a.lines.drop (a.lines.takeWhile emptyLine).length).take
            (a.lines.length - (a.lines.reverse.takeWhile emptyLine).length -
              (a.lines.takeWhile emptyLine).length))
          (a.min_y + ((a.lines.takeWhile emptyLine).length : ℤ)))) =
        some (Area.mk kpt (a.min_y + ((a.lines.takeWhile emptyLine).length : ℤ)))
      rw [if_neg hlead_ne, hdrop, htraileq]
      have harith2 : a.lines.length - t - (a.lines.takeWhile emptyLine).length =
          D.length - t := by omega
      rw [harith2, ← hkpt]



theorem Area_line_none (a : Area) (y : ℤ) (h : y < a.min_y ∨ a.max_y < y) :
    a.line y = none := by
  unfold Area.line
  rw [if_pos h]

theorem Area_line_eq_get (a : Area) (y : ℤ) (h1 : a.min_y ≤ y) (h2 : y ≤ a.max_y) :
    a.line y = a.lines.get? (y - a.min_y).toNat := by
  unfold Area.line
  rw [if_neg (by push_neg; exact ⟨h1, h2⟩)]

theorem covers_line_mem (a : Area) (y x : ℤ) (h : a.covers y x) :
    ∃ l ∈ a.lines, a.line y = some l ∧ l.covers x := by
  obtain ⟨l, hline, hcov⟩ := h
  refine ⟨l, ?_, hline, hcov⟩
  unfold Area.line at hline
  split at hline
  · cases hline
  · exact List.get?_mem hline

theorem empty_line_no_cover (l : Line) (x : ℤ) (h : l.ranges = []) : ¬ l.covers x := by
  rintro ⟨r, hr, _⟩
  rw [h] at hr
  cases hr

/-- Covered-set preservation: `optimize` changes no row's covered set. -/
theorem optimize_covers (a : Area) (y x : ℤ) :
    coversO a.optimize y x ↔ a.covers y x := by
  rcases optimize_decomp a with ⟨hnone, hempty⟩ |
    ⟨T, kept, S, hsplit, hT, hS, hne, hh, hlast, hopt⟩
  · rw [hnone]
    show False ↔ a.covers y x
    constructor
    · exact fun hcontra => hcontra.elim
    · intro hcov
      obtain ⟨l, hmem, _, hcovl⟩ := covers_line_mem a y x hcov
      exact empty_line_no_cover l x (hempty l hmem) hcovl
  · rw [hopt]
    show (Area.mk kept (a.min_y + T.length)).covers y x ↔ a.covers y x
    have hsplit2 : a.lines = T ++ (kept ++ S) := by
      rw [hsplit, List.append_assoc]
    have htotal : a.lines.length = T.length + (kept.length + S.length) := by
      rw [hsplit2, List.length_append, List.length_append]
    constructor
    · rintro ⟨l, hline, hcov⟩
      unfold Area.line at hline
      split at hline
      · cases hline
      · rename_i hin
        push_neg at hin
        unfold Area.max_y at hin
        simp only at hin
        obtain ⟨hy1, hy2⟩ := hin
        have hklen : (y - (a.min_y + (T.length : ℤ))).toNat < kept.length :=
          (List.get?_eq_some.mp hline).1
        refine ⟨l, ?_, hcov⟩
        rw [Area_line_eq_get a y (by omega) (by unfold Area.max_y; omega)]
        rw [hsplit2, List.get?_eq_getElem?,
          List.getElem?_append_right (by omega : T.length ≤ (y - a.min_y).toNat),
          List.getElem?_append_left (by omega)]
        rw [← List.get?_eq_getElem?]
        have harith : (y - a.min_y).toNat - T.length = (y - (a.min_y + T.length)).toNat := by
          omega
        rw [harith]
        exact hline
    · rintro ⟨l, hline, hcov⟩
      unfold Area.line at hline
      split at hline
      · cases hline
      · rename_i hin
        push_neg at hin
        unfold Area.max_y at hin
        obtain ⟨hy1, hy2⟩ := hin
        have hi : (y - a.min_y).toNat < a.lines.length := by omega
        rw [hsplit2, List.get?_eq_getElem?] at hline
        by_cases hc1 : (y - a.min_y).toNat < T.length
        · rw [List.getElem?_append_left hc1, ← List.get?_eq_getElem?] at hline
          have hmem : l ∈ T := List.get?_mem hline
          exact absurd hcov (empty_line_no_cover l x (hT l hmem))
        · rw [List.getElem?_append_right (by omega)] at hline
          by_cases hc2 : (y - a.min_y).toNat - T.length < kept.length
          · rw [List.getElem?_append_left hc2, ← List.get?_eq_getElem?] at hline
            refine ⟨l, ?_, hcov⟩
            unfold Area.line
            rw [if_neg ?hbound]
            case hbound =>
              push_neg
              unfold Area.max_y
              simp only
              omega
            have harith : (y - (a.min_y + T.length)).toNat =
                (y - a.min_y).toNat - T.length := by omega
            rw [harith]
            exact hline
          · rw [List.getElem?_append_right (by omega), ← List.get?_eq_getElem?] at hline
            have hmem : l ∈ S := List.get?_mem hline
            exact absurd hcov (empty_line_no_cover l x (hS l hmem))

/-- Coverage preservation: `optimize` does not change the total coverage. -/
theorem optimize_coverage (a : Area) : coverageO a.optimize = a.coverage := by
  have hzero : ∀ L : List Line, (∀ l ∈ L, l.ranges = []) → (L.map Line.coverage).sum = 0 := by
    intro L hL
    apply List.sum_eq_zero
    intro n hn
    obtain ⟨l, hl, rfl⟩ := List.mem_map.mp hn
    unfold Line.coverage
    rw [hL l hl]
    rfl
  rcases optimize_decomp a with ⟨hnone, hempty⟩ |
    ⟨T, kept, S, hsplit, hT, hS, hne, hh, hlast, hopt⟩
  · rw [hnone]
    show 0 = a.coverage
    unfold Area.coverage
    rw [hzero a.lines hempty]
  · rw [hopt]
    show (Area.mk kept (a.min_y + T.length)).coverage = a.coverage
    unfold Area.coverage
    conv_rhs => rw [hsplit]
    rw [List.map_append, List.map_append, List.sum_append, List.sum_append,
      hzero T hT, hzero S hS]
    simp

/-- The lines kept by `optimize` all come from the input area. -/
theorem optimize_some_mem (a a' : Area) (h : a.optimize = some a') :
    ∀ l ∈ a'.lines, l ∈ a.lines := by
  rcases optimize_decomp a with ⟨hnone, _⟩ |
    ⟨T, kept, S, hsplit, _, _, _, _, _, hopt⟩
  · rw [hnone] at h
    cases h
  · rw [hopt] at h
    injection h with h
    intro l hl
    rw [← h] at hl
    simp only at hl
    rw [hsplit]
    simp only [List.mem_append]
    exact Or.inl (Or.inr hl)

/-- Trim invariant of an `optimize` result: non-empty first and last lines,
and strictly positive coverage. -/
theorem optimize_some_facts (a a' : Area) (h : a.optimize = some a') :
    (∀ l ∈ a'.lines.head?, l.ranges ≠ []) ∧ (∀ l ∈ a'.lines.getLast?, l.ranges ≠ []) ∧
      a'.lines ≠ [] ∧ 0 < a'.coverage := by
  rcases optimize_decomp a with ⟨hnone, _⟩ |
    ⟨T, kept, S, hsplit, hT, hS, hne, hh, hlast, hopt⟩
  · rw [hnone] at h
    cases h
  · rw [hopt] at h
    injection h with h
    have hlines : a'.lines = kept := by rw [← h]
    rw [hlines]
    refine ⟨hh, hlast, hne, ?_⟩
    have hcov : a'.coverage = (kept.map Line.coverage).sum := by
      unfold Area.coverage
      rw [hlines]
    match hk : kept with
    | [] => exact absurd rfl hne
    | k0 :: rest =>
      have hk0 : k0.ranges ≠ [] := hh k0 rfl
      match hr : k0.ranges with
      | [] => exact absurd hr hk0
      | r :: rs =>
        have hpos : 0 < k0.coverage := by
          unfold Line.coverage
          rw [hr]
          simp
        have hmem : k0.coverage ∈ (k0 :: rest).map Line.coverage :=
          List.mem_map_of_mem Line.coverage (by simp)
        have hle := List.single_le_sum (l := (k0 :: rest).map Line.coverage)
          (by intro n _; exact Nat.zero_le n) _ hmem
        rw [hcov]
        omega

theorem roundAway_intCast (n : ℤ) : roundAway (n : ℚ) = n := by
  unfold roundAway
  by_cases h : (0 : ℚ) ≤ (n : ℚ)
  · rw [if_pos h, Int.floor_int_add]
    norm_num
  · rw [if_neg h, show -(n : ℚ) = ((-n : ℤ) : ℚ) by push_cast; ring, Int.floor_int_add]
    norm_num

theorem roundAway_zero : roundAway (0 : ℚ) = 0 := by
  simpa using roundAway_intCast 0

theorem roundAway_neg (q : ℚ) : roundAway (-q) = -roundAway q := by
  unfold roundAway
  rcases lt_trichotomy q 0 with h | h | h
  · rw [if_pos (by linarith), if_neg (not_le.mpr h), neg_neg]
  · subst h
    norm_num
  · rw [if_neg (not_le.mpr (by linarith : -q < 0)), if_pos h.le, neg_neg]

theorem roundAway_mono_step {a b : ℚ} (ha : 0 ≤ a) (hab : a ≤ b) (hba : b ≤ a + 1) :
    roundAway a ≤ roundAway b ∧ roundAway b ≤ roundAway a + 1 := by
  have hb : 0 ≤ b := le_trans ha hab
  unfold roundAway
  rw [if_pos ha, if_pos hb]
  refine ⟨Int.floor_le_floor (by linarith), ?_⟩
  calc ⌊b + 1 / 2⌋ ≤ ⌊(a + 1 / 2) + 1⌋ := Int.floor_le_floor (by linarith)
    _ = ⌊a + 1 / 2⌋ + 1 := Int.floor_add_one _

theorem roundAway_unit_step_nonneg (d : ℤ) (s m : ℕ) (h0 : 0 ≤ d) (hd : d ≤ (s : ℤ))
    (hs : 0 < s) :
    roundAway ((d : ℚ) * (m : ℚ) / (s : ℚ)) ≤ roundAway ((d : ℚ) * ((m : ℚ) + 1) / (s : ℚ)) ∧
      roundAway ((d : ℚ) * ((m : ℚ) + 1) / (s : ℚ)) ≤
        roundAway ((d : ℚ) * (m : ℚ) / (s : ℚ)) + 1 := by
  have hsq : (0 : ℚ) < (s : ℚ) := by exact_mod_cast hs
  have hdq : (0 : ℚ) ≤ (d : ℚ) := by exact_mod_cast h0
  have hmq : (0 : ℚ) ≤ (m : ℚ) := Nat.cast_nonneg m
  have ha : 0 ≤ (d : ℚ) * (m : ℚ) / (s : ℚ) := by positivity
  have hab : (d : ℚ) * (m : ℚ) / (s : ℚ) ≤ (d : ℚ) * ((m : ℚ) + 1) / (s : ℚ) := by
    gcongr
    linarith
  have hds : (d : ℚ) / (s : ℚ) ≤ 1 := (div_le_one hsq).mpr (by exact_mod_cast hd)
  have hbeq : (d : ℚ) * ((m : ℚ) + 1) / (s : ℚ) =
      (d : ℚ) * (m : ℚ) / (s : ℚ) + (d : ℚ) / (s : ℚ) := by ring
  exact roundAway_mono_step ha hab (by rw [hbeq]; linarith)

theorem roundAway_unit_step (d : ℤ) (s m : ℕ) (hd : d.natAbs ≤ s) (hs : 0 < s) :
    (roundAway ((d : ℚ) * ((m : ℚ) + 1) / (s : ℚ)) -
      roundAway ((d : ℚ) * (m : ℚ) / (s : ℚ))).natAbs ≤ 1 := by
  rcases le_or_lt 0 d with h0 | h0
  · have h := roundAway_unit_step_nonneg d s m h0 (by omega) hs
    omega
  · have h := roundAway_unit_step_nonneg (-d) s m (by omega) (by omega) hs
    have h1 : ∀ x : ℚ, (d : ℚ) * x / (s : ℚ) = -((((-d : ℤ)) : ℚ) * x / (s : ℚ)) := by
      intro x
      push_cast
      ring
    rw [h1 ((m : ℚ) + 1), h1 (m : ℚ), roundAway_neg, roundAway_neg]
    omega

theorem extSegment_eq (prev pt : I16Vec2) :
    prev :: segmentPoints prev pt =
      (List.range (max (pt.x - prev.x).natAbs (pt.y - prev.y).natAbs + 1)).map
        (segPt prev pt) := by
  unfold segmentPoints
  rw [List.range_succ_eq_map, List.map_cons, List.map_map]
  refine congrArg₂ _ ?_ ?_
  · unfold segPt
    simp [roundAway_zero]
  · refine List.map_congr_left (fun j _ => ?_)
    unfold segPt
    simp only [Function.comp_apply]
    refine congrArg₂ _ ?_ ?_ <;>
      · refine congrArg₂ _ rfl (congrArg _ ?_)
        push_cast
        ring

theorem chain_extSegment (prev pt : I16Vec2) :
    List.Chain' chebAdj (prev :: segmentPoints prev pt) := by
  rw [extSegment_eq, List.chain'_map]
  rw [show max (pt.x - prev.x).natAbs (pt.y - prev.y).natAbs + 1 =
      Nat.succ (max (pt.x - prev.x).natAbs (pt.y - prev.y).natAbs) from rfl]
  rw [List.chain'_range_succ]
  intro m hm
  have hs : 0 < max (pt.x - prev.x).natAbs (pt.y - prev.y).natAbs := by omega
  have hx := roundAway_unit_step (pt.x - prev.x)
    (max (pt.x - prev.x).natAbs (pt.y - prev.y).natAbs) m (le_max_left _ _) hs
  have hy := roundAway_unit_step (pt.y - prev.y)
    (max (pt.x - prev.x).natAbs (pt.y - prev.y).natAbs) m (le_max_right _ _) hs
  unfold segPt chebAdj
  constructor <;>
    · simp only []
      push_cast at hx hy ⊢
      omega

theorem extSegment_getLast (prev pt : I16Vec2) :
    (prev :: segmentPoints prev pt).getLast? = some pt := by
  rw [extSegment_eq, List.range_succ, List.map_append, List.map_cons, List.map_nil,
    List.getLast?_concat]
  refine congrArg _ ?_
  by_cases hs : max (pt.x - prev.x).natAbs (pt.y - prev.y).natAbs = 0
  · have hxy : pt.x - prev.x = 0 ∧ pt.y - prev.y = 0 := by omega
    unfold segPt
    rw [hs]
    cases pt
    cases prev
    simp only [I16Vec2.mk.injEq] at hxy ⊢
    constructor <;>
      · simp [roundAway_zero]
        omega
  · have hsq : ((max (pt.x - prev.x).natAbs (pt.y - prev.y).natAbs : ℕ) : ℚ) ≠ 0 := by
      exact_mod_cast hs
    unfold segPt
    rw [mul_div_cancel_right₀ _ hsq, mul_div_cancel_right₀ _ hsq,
      roundAway_intCast, roundAway_intCast]
    cases pt
    cases prev
    simp only [I16Vec2.mk.injEq]
    omega

theorem chain_interpolateGo (rest : List I16Vec2) (prev : I16Vec2) :
    List.Chain' chebAdj (prev :: interpolateGo prev rest) := by
  induction rest generalizing prev with
  | nil => simp [interpolateGo]
  | cons pt rest ih =>
    have h1 : prev :: interpolateGo prev (pt :: rest) =
        (prev :: segmentPoints prev pt) ++ interpolateGo pt rest := by
      simp [interpolateGo]
    rw [h1]
    refine List.Chain'.append (chain_extSegment prev pt) ((ih pt).tail) ?_
    intro x hx y hy
    rw [extSegment_getLast] at hx
    have hxpt : pt = x := by
      simpa using hx
    rw [← hxpt]
    exact (List.chain'_cons'.mp (ih pt)).1 y hy

/-- Claim C3: every pair of adjacent points in the output of `interpolate`
differs by at most 1 in x and at most 1 in y (axis-max delta at most one),
so every produced skeleton is an 8-connected, gap-free path. -/
theorem c3_interpolate_gap_free (points : List I16Vec2) :
    List.Chain' (fun p q => (q.x - p.x).natAbs ≤ 1 ∧ (q.y - p.y).natAbs ≤ 1)
      (interpolate points) := by
  unfold interpolate
  match points with
  | [] => simp
  | p0 :: rest => exact chain_interpolateGo rest p0

/-!
Claim C9: determinism and `restore`.
-/

/-- Advancing the rng never changes the remembered seed. -/
theorem RestorableRng_advance_seed {σ : Type} (stepFn : σ → ℕ × σ)
    (r : RestorableRng σ) (n : ℕ) : (r.advance stepFn n).seed = r.seed := by
  induction n generalizing r with
  | zero => rfl
  | succ n ih =>
    rw [RestorableRng.advance, ih]
    unfold RestorableRng.next
    rfl

/-- Claim C9: the pipeline is deterministic and `restore` rewinds exactly.
However far the freshly seeded rng has been advanced, `restore()` returns
precisely the freshly seeded rng, so it reproduces the identical raw random
stream, and re-running the mosaic geometry (`random_mosaic`: curves,
skeleton, inner area) from the restored rng yields results identical to a
run from the fresh seed; two runs from the same seed and radius are the
special case `n = 0`. -/
theorem c9_determinism {σ : Type} (tm : TrigModel) (m : RngModel σ)
    (radius seed n draws : ℕ) :
    ((RestorableRng.new m.seedFn seed).advance m.stepFn n).restore m.seedFn =
        RestorableRng.new m.seedFn seed ∧
      (((RestorableRng.new m.seedFn seed).advance m.stepFn n).restore m.seedFn).stream
          m.stepFn draws =
        (RestorableRng.new m.seedFn seed).stream m.stepFn draws ∧
      random_mosaic tm m radius
          (((RestorableRng.new m.seedFn seed).advance m.stepFn n).restore m.seedFn) =
        random_mosaic tm m radius (RestorableRng.new m.seedFn seed) := by
  have hrestore :
      ((RestorableRng.new m.seedFn seed).advance m.stepFn n).restore m.seedFn =
        RestorableRng.new m.seedFn seed := by
    unfold RestorableRng.restore
    rw [RestorableRng_advance_seed]
    rfl
  exact ⟨hrestore, by rw [hrestore], by rw [hrestore]⟩

/-!
Claim C8: trim invariant and absence on zero coverage.
-/

theorem find_inner_area_eq_optimize (curve : List I16Vec2) (a : Area)
    (h : find_inner_area curve = some a) : ∃ b : Area, b.optimize = some a := by
  unfold find_inner_area at h
  split at h
  · cases h
  · split at h
    · cases h
    · exact ⟨_, h⟩

theorem cull_eq_optimize (back front : Area) (a : Area)
    (h : cull back front = some a) : ∃ b : Area, b.optimize = some a := by
  unfold cull at h
  exact ⟨_, h⟩

/-- Claim C8: every `Area` returned by `find_inner_area` or by `cull` has a
non-empty first line and a non-empty last line, and has strictly positive
coverage—so a surviving zero-coverage region is impossible: zero coverage
always surfaces as `None`, never as an `Area` of all-empty lines. -/
theorem c8_trim_invariant (curve : List I16Vec2) (back front : Area) (a : Area) :
    (find_inner_area curve = some a →
      (∀ l ∈ a.lines.head?, l.ranges ≠ []) ∧ (∀ l ∈ a.lines.getLast?, l.ranges ≠ []) ∧
        a.lines ≠ [] ∧ 0 < a.coverage) ∧
    (cull back front = some a →
      (∀ l ∈ a.lines.head?, l.ranges ≠ []) ∧ (∀ l ∈ a.lines.getLast?, l.ranges ≠ []) ∧
        a.lines ≠ [] ∧ 0 < a.coverage) := by
  constructor
  · intro h
    obtain ⟨b, hb⟩ := find_inner_area_eq_optimize curve a h
    exact optimize_some_facts b a hb
  · intro h
    obtain ⟨b, hb⟩ := cull_eq_optimize back front a h
    exact optimize_some_facts b a hb

/-- Witness for C8 at a concrete diamond skeleton and a concrete cull. -/
theorem c8_trim_invariant_witness :
    ((∀ l ∈ (Area.mk [⟨[⟨2, 2⟩]⟩, ⟨[⟨1, 3⟩]⟩, ⟨[⟨2, 2⟩]⟩] (-1)).lines.head?, l.ranges ≠ []) ∧
      (∀ l ∈ (Area.mk [⟨[⟨2, 2⟩]⟩, ⟨[⟨1, 3⟩]⟩, ⟨[⟨2, 2⟩]⟩] (-1)).lines.getLast?, l.ranges ≠ []) ∧
      (Area.mk [⟨[⟨2, 2⟩]⟩, ⟨[⟨1, 3⟩]⟩, ⟨[⟨2, 2⟩]⟩] (-1)).lines ≠ [] ∧
      0 < (Area.mk [⟨[⟨2, 2⟩]⟩, ⟨[⟨1, 3⟩]⟩, ⟨[⟨2, 2⟩]⟩] (-1)).coverage) ∧
    ((∀ l ∈ (Area.mk [⟨[⟨0, 1⟩, ⟨4, 10⟩]⟩] 0).lines.head?, l.ranges ≠ []) ∧
      (∀ l ∈ (Area.mk [⟨[⟨0, 1⟩, ⟨4, 10⟩]⟩] 0).lines.getLast?, l.ranges ≠ []) ∧
      (Area.mk [⟨[⟨0, 1⟩, ⟨4, 10⟩]⟩] 0).lines ≠ [] ∧
      0 < (Area.mk [⟨[⟨0, 1⟩, ⟨4, 10⟩]⟩] 0).coverage) :=
  ⟨(c8_trim_invariant
      [⟨0, 0⟩, ⟨1, 1⟩, ⟨2, 2⟩, ⟨3, 1⟩, ⟨4, 0⟩, ⟨3, -1⟩, ⟨2, -2⟩, ⟨1, -1⟩, ⟨0, 0⟩]
      (Area.mk [⟨[⟨0, 10⟩]⟩] 0) (Area.mk [⟨[⟨2, 3⟩, ⟨5, 6⟩]⟩] 0)
      (Area.mk [⟨[⟨2, 2⟩]⟩, ⟨[⟨1, 3⟩]⟩, ⟨[⟨2, 2⟩]⟩] (-1))).1 (by decide),
   (c8_trim_invariant
      [⟨0, 0⟩, ⟨1, 1⟩, ⟨2, 2⟩, ⟨3, 1⟩, ⟨4, 0⟩, ⟨3, -1⟩, ⟨2, -2⟩, ⟨1, -1⟩, ⟨0, 0⟩]
      (Area.mk [⟨[⟨0, 10⟩]⟩] 0) (Area.mk [⟨[⟨2, 3⟩, ⟨5, 6⟩]⟩] 0)
      (Area.mk [⟨[⟨0, 1⟩, ⟨4, 10⟩]⟩] 0)).2 (by decide)⟩

/-!
Claim C2, part 1: the Line invariant for `find_inner_area`.  The key fact is
that `push_range` only ever emits a range strictly inside `(x1, x2)` for the
anchor pair `(x1, x2)` it was called with, so the sortedness of the anchors
separates consecutive emissions by at least 2.
-/


theorem posFrom_spec (x : ℤ) (l : List ℤ) (j : ℕ) (h : posFrom x l = some j) :
    l.get? j = some x := by
  induction l generalizing j with
  | nil => cases h
  | cons v vs ih =>
    unfold posFrom at h
    split at h
    · rename_i hv
      injection h with h
      rw [← h, hv]
      rfl
    · match hrec : posFrom x vs with
      | none =>
        rw [hrec] at h
        cases h
      | some j0 =>
        rw [hrec] at h
        injection h with h
        rw [← h]
        exact ih j0 hrec

theorem positionFrom_spec (line : List ℤ) (off : ℕ) (x : ℤ) (i : ℕ)
    (h : positionFrom line off x = some i) : off ≤ i ∧ line.get? i = some x := by
  unfold positionFrom at h
  match hp : posFrom x (line.drop off) with
  | none =>
    rw [hp] at h
    cases h
  | some j =>
    rw [hp] at h
    injection h with h
    dsimp only at h
    have hspec := posFrom_spec x (line.drop off) j hp
    rw [List.get?_drop] at hspec
    constructor
    · omega
    · rw [← h, Nat.add_comm j off]
      exact hspec

theorem sorted_get?_le (l : List ℤ) (hs : List.Sorted (· ≤ ·) l) (i j : ℕ) (xi xj : ℤ)
    (hij : i ≤ j) (hi : l.get? i = some xi) (hj : l.get? j = some xj) : xi ≤ xj := by
  rcases Nat.eq_or_lt_of_le hij with rfl | hlt
  · rw [hi] at hj
    injection hj with hj
    omega
  · obtain ⟨hilen, hig⟩ := List.get?_eq_some.mp hi
    obtain ⟨hjlen, hjg⟩ := List.get?_eq_some.mp hj
    have hrel := hs.rel_get_of_lt (a := ⟨i, hilen⟩) (b := ⟨j, hjlen⟩) hlt
    rw [hig, hjg] at hrel
    exact hrel

theorem slice_ge (line : List ℤ) (hs : List.Sorted (· ≤ ·) line) (i1 : ℕ) (x1 : ℤ)
    (hx1 : line.get? i1 = some x1) (s m : ℕ) (hsge : i1 ≤ s) :
    ∀ v ∈ (line.drop s).take m, x1 ≤ v := by
  intro v hv
  obtain ⟨n, hn⟩ := List.mem_iff_get?.mp hv
  have hlt : n < m := by
    have h1 := (List.get?_eq_some.mp hn).1
    have hlen : ((line.drop s).take m).length ≤ m := by
      simp [List.length_take]
    omega
  rw [List.get?_take hlt, List.get?_drop] at hn
  exact sorted_get?_le line hs i1 (s + n) x1 v (by omega) hx1 hn

theorem slice_le (line : List ℤ) (hs : List.Sorted (· ≤ ·) line) (i2 : ℕ) (x2 : ℤ)
    (hx2 : line.get? i2 = some x2) (s m : ℕ) (hm : s + m ≤ i2) :
    ∀ v ∈ (line.drop s).take m, v ≤ x2 := by
  intro v hv
  obtain ⟨n, hn⟩ := List.mem_iff_get?.mp hv
  have hlt : n < m := by
    have h1 := (List.get?_eq_some.mp hn).1
    have hlen : ((line.drop s).take m).length ≤ m := by
      simp [List.length_take]
    omega
  rw [List.get?_take hlt, List.get?_drop] at hn
  exact sorted_get?_le line hs (s + n) i2 v x2 (by omega) hn hx2

theorem trimUpGo_lo (vs : List ℤ) (a1 : ℤ) (i1 : ℕ) (lb : ℤ) (ha : lb ≤ a1)
    (hvs : ∀ v ∈ vs, lb ≤ v) : lb ≤ (trimUpGo vs a1 i1).1 := by
  induction vs generalizing a1 i1 with
  | nil => exact ha
  | cons v vs ih =>
    unfold trimUpGo
    split
    · exact ha
    · exact ih v (i1 + 1) (hvs v (List.mem_cons_self v vs))
        (fun w hw => hvs w (List.mem_cons_of_mem v hw))

theorem trimUpGo_idx (vs : List ℤ) (a1 : ℤ) (i1 : ℕ) :
    (trimUpGo vs a1 i1).2 ≤ i1 + vs.length := by
  induction vs generalizing a1 i1 with
  | nil => simp [trimUpGo]
  | cons v vs ih =>
    unfold trimUpGo
    split
    · simp
    · have := ih v (i1 + 1)
      simp only [List.length_cons]
      omega

theorem trimDownGo_le (vs : List ℤ) (a2 ub : ℤ) (ha : a2 ≤ ub)
    (hvs : ∀ v ∈ vs, v ≤ ub) : trimDownGo vs a2 ≤ ub := by
  induction vs generalizing a2 with
  | nil => exact ha
  | cons v vs ih =>
    unfold trimDownGo
    split
    · exact ha
    · exact ih v (hvs v (List.mem_cons_self v vs))
        (fun w hw => hvs w (List.mem_cons_of_mem v hw))

/-- Every range emitted by `push_range` for the anchor pair `(x1, x2)` lies
strictly inside `[x1, x2]` and is well-formed. -/
theorem pushRange_emits (line : List ℤ) (hs : List.Sorted (· ≤ ·) line)
    (x1 x2 : ℤ) (off : ℕ) :
    ∀ r ∈ (pushRange line x1 x2 off).2, x1 + 1 ≤ r.lo ∧ r.hi ≤ x2 - 1 ∧ r.lo ≤ r.hi := by
  intro r hr
  unfold pushRange at hr
  split at hr
  · cases hr
  · rename_i hgap
    match h1 : positionFrom line off x1 with
    | none =>
      rw [h1] at hr
      cases hr
    | some x1Index =>
      rw [h1] at hr
      dsimp only at hr
      match h2 : positionFrom line x1Index x2 with
      | none =>
        rw [h2] at hr
        cases hr
      | some x2Index =>
        rw [h2] at hr
        dsimp only at hr
        obtain ⟨hoff1, hget1⟩ := positionFrom_spec line off x1 x1Index h1
        obtain ⟨hoff2, hget2⟩ := positionFrom_spec line x1Index x2 x2Index h2
        have hne : x1Index ≠ x2Index := by
          intro hcontra
          rw [hcontra, hget2] at hget1
          injection hget1 with hget1
          omega
        have hidx : x1Index < x2Index := by omega
        set up := trimUpGo ((line.drop (x1Index + 1)).take (x2Index - (x1Index + 1)))
          x1 x1Index with hup
        have ha1 : x1 ≤ up.1 :=
          trimUpGo_lo _ x1 x1Index x1 le_rfl
            (slice_ge line hs x1Index x1 hget1 (x1Index + 1) _ (by omega))
        have hupidx : up.2 ≤ x2Index - 1 := by
          have h := trimUpGo_idx ((line.drop (x1Index + 1)).take (x2Index - (x1Index + 1)))
            x1 x1Index
          have hlen : ((line.drop (x1Index + 1)).take (x2Index - (x1Index + 1))).length ≤
              x2Index - (x1Index + 1) := by
            simp [List.length_take]
          rw [← hup] at h
          omega
        set down := (if x2Index ≠ 0 then
            trimDownGo (((line.drop (up.2 + 1)).take (x2Index - 1 - up.2)).reverse) x2
          else x2) with hdown
        have ha2 : down ≤ x2 := by
          rw [hdown]
          split
          · apply trimDownGo_le _ _ _ le_rfl
            intro v hv
            rw [List.mem_reverse] at hv
            exact slice_le line hs x2Index x2 hget2 _ _ (by omega) v hv
          · exact le_rfl
        split at hr
        · rename_i hemit
          rw [List.mem_singleton] at hr
          subst hr
          exact ⟨by dsimp only; omega, by dsimp only; omega, by dsimp only; omega⟩
        · cases hr

theorem pushRange_len (line : List ℤ) (x1 x2 : ℤ) (off : ℕ) :
    (pushRange line x1 x2 off).2.length ≤ 1 := by
  unfold pushRange
  split
  · simp
  · match positionFrom line off x1 with
    | none => simp
    | some i1 =>
      dsimp only
      match positionFrom line i1 x2 with
      | none => simp
      | some i2 =>
        dsimp only
        split <;> · split <;> simp

theorem chain'_of_len_le_one {R : Range → Range → Prop} (l : List Range) (h : l.length ≤ 1) :
    List.Chain' R l := by
  match l with
  | [] => exact List.chain'_nil
  | [r] => exact List.chain'_singleton r
  | r :: s :: t => simp at h

theorem rowGo_oddTail (line : List ℤ) : ∀ (n : ℕ) (as : List ℤ), as.length = n →
    2 ≤ as.length → ∀ (off : ℕ),
    rowGo line as off ++ (if as.length % 2 ≠ 0 then
      (pushRange line (as.getD (as.length - 2) 0) (as.getD (as.length - 1) 0) 0).2
    else []) = rowAll line as off := by
  intro n
  induction n using Nat.strong_induction_on with
  | _ n ih =>
    intro as hlen h2 off
    match as with
    | [] => simp at h2
    | [a] => simp at h2
    | [a, b] => simp [rowGo, rowAll]
    | [a, b, c] => simp [rowGo, rowAll]
    | a :: b :: c :: d :: rest =>
      have ihr := ih (c :: d :: rest).length
        (by subst hlen; simp only [List.length_cons]; omega) (c :: d :: rest) rfl
        (by simp only [List.length_cons]; omega) ((pushRange line a b off).1.getD off)
      show (pushRange line a b off).2 ++ rowGo line (c :: d :: rest)
          ((pushRange line a b off).1.getD off) ++ _ = _
      rw [List.append_assoc]
      have hmod : (a :: b :: c :: d :: rest).length % 2 = (c :: d :: rest).length % 2 := by
        simp only [List.length_cons]
        omega
      have hgd2 : (a :: b :: c :: d :: rest).getD ((a :: b :: c :: d :: rest).length - 2) 0 =
          (c :: d :: rest).getD ((c :: d :: rest).length - 2) 0 := by
        rw [show (a :: b :: c :: d :: rest).length - 2 = (c :: d :: rest).length - 2 + 2 by
          simp only [List.length_cons]; omega]
        rfl
      have hgd1 : (a :: b :: c :: d :: rest).getD ((a :: b :: c :: d :: rest).length - 1) 0 =
          (c :: d :: rest).getD ((c :: d :: rest).length - 1) 0 := by
        rw [show (a :: b :: c :: d :: rest).length - 1 = (c :: d :: rest).length - 1 + 2 by
          simp only [List.length_cons]; omega]
        rfl
      rw [hmod, hgd2, hgd1, ihr]
      show _ = rowAll line (a :: b :: c :: d :: rest) off
      rfl

theorem rowRanges_eq_rowAll (line as : List ℤ) : rowRanges line as = rowAll line as 0 := by
  unfold rowRanges
  split
  · rename_i hle
    match as with
    | [] => rfl
    | [a] => rfl
    | a :: b :: t => simp at hle
  · rename_i hgt
    exact rowGo_oddTail line as.length as rfl (by omega) 0

theorem rowAll_inv (line : List ℤ) (hs : List.Sorted (· ≤ ·) line) :
    ∀ (n : ℕ) (as : List ℤ), as.length = n → List.Sorted (· ≤ ·) as → ∀ (off : ℕ),
      List.Chain' RangeGap (rowAll line as off) ∧
      ∀ r ∈ rowAll line as off, r.lo ≤ r.hi ∧ ∀ a0 ∈ as.head?, a0 + 1 ≤ r.lo := by
  intro n
  induction n using Nat.strong_induction_on with
  | _ n ih =>
    intro as hlen hsort off
    match as with
    | [] => exact ⟨List.chain'_nil, by simp [rowAll]⟩
    | [a] =>
      refine ⟨?_, ?_⟩ <;> rw [show rowAll line [a] off = [] from rfl]
      · exact List.chain'_nil
      · simp
    | [a, b] =>
      have hab : a ≤ b := (List.sorted_cons.mp hsort).1 b (by simp)
      have hrw : rowAll line [a, b] off = (pushRange line a b off).2 ++ [] := rfl
      rw [hrw, List.append_nil]
      refine ⟨chain'_of_len_le_one _ (pushRange_len line a b off), ?_⟩
      intro r hr
      obtain ⟨hlo, hhi, hwf⟩ := pushRange_emits line hs a b off r hr
      exact ⟨hwf, by intro a0 ha0; simp at ha0; omega⟩
    | [a, b, c] =>
      have hab : a ≤ b := (List.sorted_cons.mp hsort).1 b (by simp)
      have hrw : rowAll line [a, b, c] off =
          (pushRange line a b off).2 ++ (pushRange line b c 0).2 := rfl
      rw [hrw]
      constructor
      · refine List.Chain'.append (chain'_of_len_le_one _ (pushRange_len line a b off))
          (chain'_of_len_le_one _ (pushRange_len line b c 0)) ?_
        intro x hx y hy
        obtain ⟨_, hxhi, _⟩ := pushRange_emits line hs a b off x
          (List.mem_of_mem_getLast? hx)
        obtain ⟨hylo, _, _⟩ := pushRange_emits line hs b c 0 y
          (List.mem_of_mem_head? hy)
        show x.hi < y.lo - 1
        omega
      · intro r hr
        rw [List.mem_append] at hr
        rcases hr with hr | hr
        · obtain ⟨hlo, hhi, hwf⟩ := pushRange_emits line hs a b off r hr
          exact ⟨hwf, by intro a0 ha0; simp at ha0; omega⟩
        · obtain ⟨hlo, hhi, hwf⟩ := pushRange_emits line hs b c 0 r hr
          exact ⟨hwf, by intro a0 ha0; simp at ha0; omega⟩
    | a :: b :: c :: d :: rest =>
      have hab : a ≤ b := (List.sorted_cons.mp hsort).1 b (by simp)
      have hbc : b ≤ c :=
        (List.sorted_cons.mp (List.sorted_cons.mp hsort).2).1 c (by simp)
      have hsrest : List.Sorted (· ≤ ·) (c :: d :: rest) :=
        (List.sorted_cons.mp (List.sorted_cons.mp hsort).2).2
      have ihr := ih (c :: d :: rest).length
        (by subst hlen; simp only [List.length_cons]; omega)
        (c :: d :: rest) rfl hsrest ((pushRange line a b off).1.getD off)
      have hrw : rowAll line (a :: b :: c :: d :: rest) off =
          (pushRange line a b off).2 ++
            rowAll line (c :: d :: rest) ((pushRange line a b off).1.getD off) := rfl
      rw [hrw]
      constructor
      · refine List.Chain'.append (chain'_of_len_le_one _ (pushRange_len line a b off))
          ihr.1 ?_
        intro x hx y hy
        obtain ⟨_, hxhi, _⟩ := pushRange_emits line hs a b off x
          (List.mem_of_mem_getLast? hx)
        have hybound := (ihr.2 y (List.mem_of_mem_head? hy)).2 c rfl
        show x.hi < y.lo - 1
        omega
      · intro r hr
        rw [List.mem_append] at hr
        rcases hr with hr | hr
        · obtain ⟨hlo, hhi, hwf⟩ := pushRange_emits line hs a b off r hr
          exact ⟨hwf, by intro a0 ha0; simp at ha0; omega⟩
        · obtain ⟨hwf, hbound⟩ := ihr.2 r hr
          refine ⟨hwf, ?_⟩
          intro a0 ha0
          simp at ha0
          have := hbound c rfl
          omega

theorem sorted_getD_map (arr : Array (List ℤ)) (i : ℕ) :
    List.Sorted (· ≤ ·) ((arr.map (List.insertionSort (· ≤ ·))).getD i []) := by
  unfold Array.getD
  split
  · rw [Array.get_eq_getElem, Array.getElem_map]
    exact List.sorted_insertionSort _ _
  · exact List.sorted_nil

/-- The per-row Line invariant of every line assembled by `find_inner_area`
before trimming. -/
theorem rowRanges_line_inv (line as : List ℤ) (hsl : List.Sorted (· ≤ ·) line)
    (hsa : List.Sorted (· ≤ ·) as) : (Line.mk (rowRanges line as)).Inv := by
  unfold Line.Inv
  rw [rowRanges_eq_rowAll]
  have h := rowAll_inv line hsl as.length as rfl hsa 0
  exact ⟨h.1, fun r hr => (h.2 r hr).1⟩

/-!
Claim C2, part 2: the Line invariant for `cull`.  The range merge only emits
back sub-ranges (containment), which yields both wellformedness and the
gap chain.
-/

theorem chain_gap_head (b : Range) (bs : List Range)
    (hc : List.Chain' RangeGap (b :: bs)) (hwf : ∀ r ∈ bs, r.WF) :
    ∀ r ∈ bs, b.hi < r.lo - 1 := by
  induction bs generalizing b with
  | nil => intro r hr; cases hr
  | cons c cs ih =>
    intro r hr
    rw [List.chain'_cons] at hc
    have h1 : b.hi < c.lo - 1 := hc.1
    rcases List.mem_cons.mp hr with rfl | hr
    · exact h1
    · have hcwf : c.lo ≤ c.hi := hwf c (by simp)
      have h2 := ih c hc.2 (fun r hr => hwf r (List.mem_cons_of_mem c hr)) r hr
      omega

theorem cullRangesF_inv : ∀ (fuel : ℕ), ∀ (bs fs : List Range),
    bs.length + fs.length ≤ fuel →
    List.Chain' RangeGap bs → (∀ r ∈ bs, r.WF) →
    List.Chain' RangeGap fs → (∀ r ∈ fs, r.WF) →
    List.Chain' RangeGap (cullRangesF fuel bs fs) ∧
    (∀ r ∈ cullRangesF fuel bs fs, r.WF) ∧
    (∀ r ∈ cullRangesF fuel bs fs, ∃ b ∈ bs, b.lo ≤ r.lo ∧ r.hi ≤ b.hi) := by
  intro fuel
  induction fuel with
  | zero =>
    intro bs fs hlen hcb hwb hcf hwf
    match bs, fs with
    | [], fs =>
      exact ⟨List.chain'_nil, fun r hr => absurd hr (by simp [cullRangesF]),
        fun r hr => absurd hr (by simp [cullRangesF])⟩
    | b :: bs, [] =>
      exact ⟨hcb, hwb, fun r hr => ⟨r, hr, le_refl _, le_refl _⟩⟩
    | b :: bs, f :: fs =>
      simp only [List.length_cons] at hlen
      omega
  | succ fuel ih =>
    intro bs fs hlen hcb hwb hcf hwf
    match bs, fs with
    | [], fs =>
      exact ⟨List.chain'_nil, fun r hr => absurd hr (by simp [cullRangesF]),
        fun r hr => absurd hr (by simp [cullRangesF])⟩
    | b :: bs, [] =>
      exact ⟨hcb, hwb, fun r hr => ⟨r, hr, le_refl _, le_refl _⟩⟩
    | b :: bs, f :: fs =>
      simp only [List.length_cons] at hlen
      have hcb' : List.Chain' RangeGap bs := hcb.tail
      have hwb' : ∀ r ∈ bs, r.WF := fun r hr => hwb r (List.mem_cons_of_mem b hr)
      have hcf' : List.Chain' RangeGap fs := hcf.tail
      have hwf' : ∀ r ∈ fs, r.WF := fun r hr => hwf r (List.mem_cons_of_mem f hr)
      have hbwf : b.lo ≤ b.hi := hwb b (by simp)
      have hfwf : f.lo ≤ f.hi := hwf f (by simp)
      have hhead : ∀ r ∈ bs, b.hi < r.lo - 1 := chain_gap_head b bs hcb hwb'
      have heq : cullRangesF (fuel + 1) (b :: bs) (f :: fs) =
          if b.hi < f.lo then b :: cullRangesF fuel bs (f :: fs)
          else if f.hi < b.lo then cullRangesF fuel (b :: bs) fs
          else (if b.lo < f.lo then [(⟨b.lo, f.lo - 1⟩ : Range)] else []) ++
            (if f.hi < b.hi then
              (⟨f.hi + 1, b.hi⟩ : Range) :: cullRangesF fuel bs fs
            else cullRangesF fuel bs (f :: fs)) := rfl
      rw [heq]
      by_cases h1 : b.hi < f.lo
      · rw [if_pos h1]
        obtain ⟨ihc, ihw, ihm⟩ := ih bs (f :: fs)
          (by simp only [List.length_cons]; omega) hcb' hwb' hcf hwf
        refine ⟨?_, ?_, ?_⟩
        · rw [List.chain'_cons']
          refine ⟨?_, ihc⟩
          intro h hh
          obtain ⟨b', hb', hlo, hhi⟩ := ihm h (List.mem_of_mem_head? hh)
          have := hhead b' hb'
          show b.hi < h.lo - 1
          omega
        · intro r hr
          rcases List.mem_cons.mp hr with rfl | hr
          · exact hbwf
          · exact ihw r hr
        · intro r hr
          rcases List.mem_cons.mp hr with rfl | hr
          · exact ⟨r, by simp, le_refl _, le_refl _⟩
          · obtain ⟨b', hb', h3, h4⟩ := ihm r hr
            exact ⟨b', List.mem_cons_of_mem b hb', h3, h4⟩
      · rw [if_neg h1]
        by_cases h2 : f.hi < b.lo
        · rw [if_pos h2]
          exact ih (b :: bs) fs (by simp only [List.length_cons]; omega)
            hcb hwb hcf' hwf'
        · rw [if_neg h2]
          obtain ⟨ihcA, ihwA, ihmA⟩ := ih bs fs (by omega) hcb' hwb' hcf' hwf'
          obtain ⟨ihcB, ihwB, ihmB⟩ := ih bs (f :: fs)
            (by simp only [List.length_cons]; omega) hcb' hwb' hcf hwf
          have hrecA : ∀ h ∈ cullRangesF fuel bs fs, b.hi < h.lo - 1 := by
            intro h hh
            obtain ⟨b', hb', hlo, hhi⟩ := ihmA h hh
            have := hhead b' hb'
            omega
          have hrecB : ∀ h ∈ cullRangesF fuel bs (f :: fs), b.hi < h.lo - 1 := by
            intro h hh
            obtain ⟨b', hb', hlo, hhi⟩ := ihmB h hh
            have := hhead b' hb'
            omega
          by_cases h4 : f.hi < b.hi
          · rw [if_pos h4]
            by_cases h3 : b.lo < f.lo
            · rw [if_pos h3]
              simp only [List.singleton_append]
              refine ⟨?_, ?_, ?_⟩
              · rw [List.chain'_cons]
                refine ⟨by show f.lo - 1 < f.hi + 1 - 1; omega, ?_⟩
                rw [List.chain'_cons']
                refine ⟨?_, ihcA⟩
                intro h hh
                have := hrecA h (List.mem_of_mem_head? hh)
                show b.hi < h.lo - 1
                omega
              · intro r hr
                rcases List.mem_cons.mp hr with rfl | hr
                · show b.lo ≤ f.lo - 1; omega
                rcases List.mem_cons.mp hr with rfl | hr
                · show f.hi + 1 ≤ b.hi; omega
                · exact ihwA r hr
              · intro r hr
                rcases List.mem_cons.mp hr with rfl | hr
                · exact ⟨b, by simp, by simp, by show f.lo - 1 ≤ b.hi; omega⟩
                rcases List.mem_cons.mp hr with rfl | hr
                · exact ⟨b, by simp, by show b.lo ≤ f.hi + 1; omega, by simp⟩
                · obtain ⟨b', hb', h5, h6⟩ := ihmA r hr
                  exact ⟨b', List.mem_cons_of_mem b hb', h5, h6⟩
            · rw [if_neg h3]
              simp only [List.nil_append]
              refine ⟨?_, ?_, ?_⟩
              · rw [List.chain'_cons']
                refine ⟨?_, ihcA⟩
                intro h hh
                have := hrecA h (List.mem_of_mem_head? hh)
                show b.hi < h.lo - 1
                omega
              · intro r hr
                rcases List.mem_cons.mp hr with rfl | hr
                · show f.hi + 1 ≤ b.hi; omega
                · exact ihwA r hr
              · intro r hr
                rcases List.mem_cons.mp hr with rfl | hr
                · exact ⟨b, by simp, by show b.lo ≤ f.hi + 1; omega, by simp⟩
                · obtain ⟨b', hb', h5, h6⟩ := ihmA r hr
                  exact ⟨b', List.mem_cons_of_mem b hb', h5, h6⟩
          · rw [if_neg h4]
            by_cases h3 : b.lo < f.lo
            · rw [if_pos h3]
              simp only [List.singleton_append]
              refine ⟨?_, ?_, ?_⟩
              · rw [List.chain'_cons']
                refine ⟨?_, ihcB⟩
                intro h hh
                have := hrecB h (List.mem_of_mem_head? hh)
                show f.lo - 1 < h.lo - 1
                omega
              · intro r hr
                rcases List.mem_cons.mp hr with rfl | hr
                · show b.lo ≤ f.lo - 1; omega
                · exact ihwB r hr
              · intro r hr
                rcases List.mem_cons.mp hr with rfl | hr
                · exact ⟨b, by simp, by simp, by show f.lo - 1 ≤ b.hi; omega⟩
                · obtain ⟨b', hb', h5, h6⟩ := ihmB r hr
                  exact ⟨b', List.mem_cons_of_mem b hb', h5, h6⟩
            · rw [if_neg h3]
              simp only [List.nil_append]
              refine ⟨ihcB, ihwB, ?_⟩
              intro r hr
              obtain ⟨b', hb', h5, h6⟩ := ihmB r hr
              exact ⟨b', List.mem_cons_of_mem b hb', h5, h6⟩

theorem cullRanges_inv (bs fs : List Range)
    (hcb : List.Chain' RangeGap bs) (hwb : ∀ r ∈ bs, r.WF)
    (hcf : List.Chain' RangeGap fs) (hwf : ∀ r ∈ fs, r.WF) :
    List.Chain' RangeGap (cullRanges bs fs) ∧ (∀ r ∈ cullRanges bs fs, r.WF) ∧
    (∀ r ∈ cullRanges bs fs, ∃ b ∈ bs, b.lo ≤ r.lo ∧ r.hi ≤ b.hi) := by
  unfold cullRanges
  exact cullRangesF_inv _ bs fs (le_refl _) hcb hwb hcf hwf

theorem emptyLine_inv : (Line.mk []).Inv :=
  ⟨List.chain'_nil, fun r hr => absurd hr (by simp)⟩

theorem line_getD_inv (a : Area) (ha : a.Inv) (y : ℤ) :
    ((a.line y).getD ⟨[]⟩).Inv := by
  match h : a.line y with
  | none => exact emptyLine_inv
  | some l =>
    have hl : l ∈ a.lines := by
      unfold Area.line at h
      split at h
      · cases h
      · exact List.get?_mem h
    exact ha l hl

theorem backTail_inv (back : Area) (hb : back.Inv) (backY : ℤ) :
    ∀ l ∈ backTail back backY, l.Inv := by
  intro l hl
  unfold backTail at hl
  rw [List.mem_map] at hl
  obtain ⟨y, _, rfl⟩ := hl
  exact line_getD_inv back hb y

theorem cullGoF_line_inv (back front : Area) (hb : back.Inv) (hf : front.Inv) :
    ∀ (fuel : ℕ) (backY frontY : ℤ), ∀ l ∈ cullGoF back front fuel backY frontY,
      l.Inv := by
  intro fuel
  induction fuel with
  | zero =>
    intro backY frontY l hl
    rw [show cullGoF back front 0 backY frontY =
      if backY ≤ back.max_y ∧ frontY ≤ front.max_y then []
      else backTail back backY from rfl] at hl
    split at hl
    · cases hl
    · exact backTail_inv back hb backY l hl
  | succ fuel ih =>
    intro backY frontY l hl
    rw [show cullGoF back front (fuel + 1) backY frontY =
      if backY ≤ back.max_y ∧ frontY ≤ front.max_y then
        (if backY = frontY then
          (if ((back.line backY).getD ⟨[]⟩).intersects ((front.line frontY).getD ⟨[]⟩)
          then
            Line.mk (cullRanges ((back.line backY).getD ⟨[]⟩).ranges
                ((front.line frontY).getD ⟨[]⟩).ranges) ::
              cullGoF back front fuel (backY + 1) (frontY + 1)
          else ((back.line backY).getD ⟨[]⟩) :: cullGoF back front fuel (backY + 1) frontY)
        else if frontY < backY then cullGoF back front fuel backY (frontY + 1)
        else ((back.line backY).getD ⟨[]⟩) :: cullGoF back front fuel (backY + 1) frontY)
      else backTail back backY from rfl] at hl
    split at hl
    · split at hl
      · split at hl
        · rcases List.mem_cons.mp hl with rfl | hl
          · obtain ⟨hcb, hwb⟩ := line_getD_inv back hb backY
            obtain ⟨hcf, hwf⟩ := line_getD_inv front hf frontY
            have h := cullRanges_inv _ _ hcb hwb hcf hwf
            exact ⟨h.1, h.2.1⟩
          · exact ih (backY + 1) (frontY + 1) l hl
        · rcases List.mem_cons.mp hl with rfl | hl
          · exact line_getD_inv back hb backY
          · exact ih (backY + 1) frontY l hl
      · split at hl
        · exact ih backY (frontY + 1) l hl
        · rcases List.mem_cons.mp hl with rfl | hl
          · exact line_getD_inv back hb backY
          · exact ih (backY + 1) frontY l hl
    · exact backTail_inv back hb backY l hl

theorem cull_line_inv (back front : Area) (hb : back.Inv) (hf : front.Inv)
    (a : Area) (h : cull back front = some a) : a.Inv := by
  intro l hl
  unfold cull at h
  have hmem := optimize_some_mem _ a h l hl
  dsimp only at hmem
  rw [List.mem_append, List.mem_append] at hmem
  rcases hmem with (hmem | hmem) | hmem
  · rw [List.eq_of_mem_replicate hmem]
    exact emptyLine_inv
  · exact cullGoF_line_inv back front hb hf _ _ _ l hmem
  · rw [List.eq_of_mem_replicate hmem]
    exact emptyLine_inv

theorem curveRows_sorted (minY : ℤ) (yLen : ℕ) (curve : List I16Vec2) (i : ℕ) :
    List.Sorted (· ≤ ·) ((curveRows minY yLen curve).getD i []) :=
  sorted_getD_map _ i

theorem find_inner_area_line_inv (curve : List I16Vec2) (a : Area)
    (h : find_inner_area curve = some a) : a.Inv := by
  unfold find_inner_area at h
  split at h
  · cases h
  · split at h
    · cases h
    · rename_i origin rest
      intro l hl
      have hmem := optimize_some_mem _ a h l hl
      dsimp only at hmem
      rw [List.mem_map] at hmem
      obtain ⟨i, _, rfl⟩ := hmem
      exact rowRanges_line_inv _ _ (curveRows_sorted _ _ _ i) (sorted_getD_map _ i)

/-- Claim C2: every `Area` returned by `find_inner_area` or by `cull` (the
latter on inputs that themselves satisfy the invariant, as all its call
sites do) has, in every `Line`, ranges that are well-formed and sorted
ascending with consecutive ranges separated by at least 2:
`ranges[i].to < ranges[i+1].from - 1` (`Line.Inv` is exactly this chain
condition together with `lo ≤ hi` for each range). -/
theorem c2_line_invariant (curve : List I16Vec2) (back front : Area)
    (a a' : Area) (hb : back.Inv) (hf : front.Inv) :
    (find_inner_area curve = some a → a.Inv) ∧
    (cull back front = some a' → a'.Inv) :=
  ⟨find_inner_area_line_inv curve a, cull_line_inv back front hb hf a'⟩

/-- Witness for C2 at a concrete diamond skeleton and a concrete cull. -/
theorem c2_line_invariant_witness :
    (Area.mk [⟨[⟨2, 2⟩]⟩, ⟨[⟨1, 3⟩]⟩, ⟨[⟨2, 2⟩]⟩] (-1)).Inv ∧
      (Area.mk [⟨[⟨0, 1⟩, ⟨4, 10⟩]⟩] 0).Inv := by
  have h := c2_line_invariant
    [⟨0, 0⟩, ⟨1, 1⟩, ⟨2, 2⟩, ⟨3, 1⟩, ⟨4, 0⟩, ⟨3, -1⟩, ⟨2, -2⟩, ⟨1, -1⟩, ⟨0, 0⟩]
    (Area.mk [⟨[⟨0, 10⟩]⟩] 0) (Area.mk [⟨[⟨2, 3⟩, ⟨5, 6⟩]⟩] 0)
    (Area.mk [⟨[⟨2, 2⟩]⟩, ⟨[⟨1, 3⟩]⟩, ⟨[⟨2, 2⟩]⟩] (-1))
    (Area.mk [⟨[⟨0, 1⟩, ⟨4, 10⟩]⟩] 0) (by decide) (by decide)
  exact ⟨h.1 (by decide), h.2 (by decide)⟩

/-!
Claims C1 and C4: a row-level characterization of `cull`.  The sweep loop
visits exactly the rows of the back area in order, producing for each shared
row the `Ordering::Equal` arm's line and copying every other back row
unchanged.
-/

theorem intRows_mem (lo hi y : ℤ) (h : y ∈ intRows lo hi) : lo ≤ y ∧ y ≤ hi := by
  unfold intRows at h
  rw [List.mem_map] at h
  obtain ⟨i, hi', rfl⟩ := h
  rw [List.mem_range] at hi'
  omega

theorem intRows_cons (lo hi : ℤ) (h : lo ≤ hi) :
    intRows lo hi = lo :: intRows (lo + 1) hi := by
  unfold intRows
  rw [show (hi + 1 - lo).toNat = (hi + 1 - (lo + 1)).toNat + 1 by omega,
    List.range_succ_eq_map]
  rw [List.map_cons, List.map_map]
  refine congrArg₂ _ (by simp) ?_
  apply List.map_congr_left
  intro i _
  show lo + ((i : ℤ) + 1) = lo + 1 + (i : ℤ)
  ring

theorem Area_line_isSome (a : Area) (y : ℤ) (h1 : a.min_y ≤ y) (h2 : y ≤ a.max_y) :
    ∃ l, a.line y = some l := by
  unfold Area.line
  rw [if_neg (by push_neg; exact ⟨h1, h2⟩)]
  have hlen : (y - a.min_y).toNat < a.lines.length := by
    unfold Area.max_y at h2
    omega
  exact ⟨_, List.get?_eq_get hlen⟩

theorem cullGoF_tail_eq (back front : Area) (backY frontY : ℤ)
    (h2 : frontY ≤ max front.min_y backY)
    (hcond : ¬(backY ≤ back.max_y ∧ frontY ≤ front.max_y)) :
    backTail back backY = (intRows backY back.max_y).map (cullRow back front) := by
  unfold backTail
  apply List.map_congr_left
  intro y hy
  obtain ⟨hy1, hy2⟩ := intRows_mem _ _ _ hy
  have hfy : front.max_y < frontY := by
    rcases not_and_or.mp hcond with hc | hc
    · exact absurd (le_trans hy1 hy2) hc
    · omega
  have hnone : front.line y = none := by
    unfold Area.line
    rw [if_pos ?_]
    rcases max_cases front.min_y backY with ⟨hEq, _⟩ | ⟨hEq, _⟩ <;> rw [hEq] at h2
    · by_cases hlt : y < front.min_y
      · exact Or.inl hlt
      · exact Or.inr (by omega)
    · exact Or.inr (by omega)
  unfold cullRow
  rw [hnone]

theorem cullGoF_char (back front : Area) : ∀ (fuel : ℕ) (backY frontY : ℤ),
    front.min_y ≤ frontY →
    frontY ≤ max front.min_y backY →
    (back.max_y + 1 - backY).toNat + (front.max_y + 1 - frontY).toNat ≤ fuel →
    cullGoF back front fuel backY frontY =
      (intRows backY back.max_y).map (cullRow back front) := by
  intro fuel
  induction fuel with
  | zero =>
    intro backY frontY h1 h2 hfuel
    rw [show cullGoF back front 0 backY frontY =
      if backY ≤ back.max_y ∧ frontY ≤ front.max_y then []
      else backTail back backY from rfl]
    split
    · rename_i hcond
      exact absurd hfuel (by omega)
    · rename_i hcond
      exact cullGoF_tail_eq back front backY frontY h2 hcond
  | succ fuel ih =>
    intro backY frontY h1 h2 hfuel
    rw [show cullGoF back front (fuel + 1) backY frontY =
      if backY ≤ back.max_y ∧ frontY ≤ front.max_y then
        (if backY = frontY then
          (if ((back.line backY).getD ⟨[]⟩).intersects ((front.line frontY).getD ⟨[]⟩)
          then
            Line.mk (cullRanges ((back.line backY).getD ⟨[]⟩).ranges
                ((front.line frontY).getD ⟨[]⟩).ranges) ::
              cullGoF back front fuel (backY + 1) (frontY + 1)
          else ((back.line backY).getD ⟨[]⟩) :: cullGoF back front fuel (backY + 1) frontY)
        else if frontY < backY then cullGoF back front fuel backY (frontY + 1)
        else ((back.line backY).getD ⟨[]⟩) :: cullGoF back front fuel (backY + 1) frontY)
      else backTail back backY from rfl]
    split
    · rename_i hcond
      obtain ⟨hby, hfy⟩ := hcond
      by_cases heq : backY = frontY
      · rw [if_pos heq]
        subst heq
        obtain ⟨fl, hfl⟩ := Area_line_isSome front backY h1 hfy
        rw [hfl]
        simp only [Option.getD_some]
        rw [intRows_cons backY back.max_y hby, List.map_cons]
        have hrow : cullRow back front backY =
            if ((back.line backY).getD ⟨[]⟩).intersects fl then
              Line.mk (cullRanges ((back.line backY).getD ⟨[]⟩).ranges fl.ranges)
            else (back.line backY).getD ⟨[]⟩ := by
          unfold cullRow cullEqLine
          rw [hfl]
        rw [hrow]
        split
        · refine congrArg₂ _ rfl ?_
          exact ih (backY + 1) (backY + 1) (by omega) (le_max_right _ _) (by omega)
        · refine congrArg₂ _ rfl ?_
          exact ih (backY + 1) backY h1
            (le_trans (by omega) (le_max_right front.min_y (backY + 1))) (by omega)
      · rw [if_neg heq]
        by_cases hlt : frontY < backY
        · rw [if_pos hlt]
          exact ih backY (frontY + 1) (by omega)
            (le_trans (by omega) (le_max_right front.min_y backY)) (by omega)
        · have hgt : backY < frontY := by omega
          rw [if_neg hlt]
          have hfmin : frontY ≤ front.min_y := by
            rcases max_cases front.min_y backY with ⟨hEq, _⟩ | ⟨hEq, _⟩ <;>
              rw [hEq] at h2 <;> omega
          have hnone : front.line backY = none := by
            unfold Area.line
            rw [if_pos (Or.inl (by omega))]
          rw [intRows_cons backY back.max_y hby, List.map_cons]
          refine congrArg₂ _ ?_ ?_
          · unfold cullRow
            rw [hnone]
          · exact ih (backY + 1) frontY h1
              (le_trans hfmin (le_max_left _ _)) (by omega)
    · rename_i hcond
      exact cullGoF_tail_eq back front backY frontY h2 hcond

/-- `cull` in closed form: the optimized area whose rows are `cullRow` on the
back span, padded with empty rows to the joint span. -/
theorem cull_eq (back front : Area) :
    cull back front = (Area.mk
      (List.replicate (back.min_y - min back.min_y front.min_y).toNat ⟨[]⟩ ++
        (intRows back.min_y back.max_y).map (cullRow back front) ++
        List.replicate (max back.max_y front.max_y - back.max_y).toNat ⟨[]⟩)
      (min back.min_y front.min_y)).optimize := by
  unfold cull
  dsimp only
  rw [cullGoF_char back front _ back.min_y (max front.min_y back.min_y)
    (le_max_left _ _) (le_refl _) (le_refl _)]

/-- Row-level semantics of `cull`: the result covers `(y, x)` exactly when
`y` is a back row and the culled row for `y` covers `x`. -/
theorem cull_covers (back front : Area) (y x : ℤ) :
    coversO (cull back front) y x ↔
      back.min_y ≤ y ∧ y ≤ back.max_y ∧ (cullRow back front y).covers x := by
  rw [cull_eq back front, optimize_covers]
  set minY := min back.min_y front.min_y with hminY
  set rep1 := List.replicate (back.min_y - minY).toNat (⟨[]⟩ : Line) with hrep1
  set mid := (intRows back.min_y back.max_y).map (cullRow back front) with hmid
  set rep2 := List.replicate (max back.max_y front.max_y - back.max_y).toNat
    (⟨[]⟩ : Line) with hrep2
  have hminle : minY ≤ back.min_y := min_le_left _ _
  have hmaxle : back.max_y ≤ max back.max_y front.max_y := le_max_left _ _
  have hl1 : rep1.length = (back.min_y - minY).toNat := List.length_replicate _ _
  have hlm : mid.length = (back.max_y + 1 - back.min_y).toNat := by
    rw [hmid, List.length_map]
    unfold intRows
    rw [List.length_map, List.length_range]
  have hl2 : rep2.length = (max back.max_y front.max_y - back.max_y).toNat :=
    List.length_replicate _ _
  have htot : (rep1 ++ mid ++ rep2).length = rep1.length + mid.length + rep2.length := by
    rw [List.length_append, List.length_append]
  have hmid_get : ∀ j : ℕ, j < mid.length →
      mid.get? j = some (cullRow back front (back.min_y + (j : ℤ))) := by
    intro j hj
    rw [hmid] at hj ⊢
    rw [List.length_map] at hj
    rw [List.get?_eq_getElem?, List.getElem?_map]
    unfold intRows at hj ⊢
    rw [List.length_map, List.length_range] at hj
    rw [List.getElem?_map, List.getElem?_range hj]
    rfl
  constructor
  · rintro ⟨l, hline, hcov⟩
    unfold Area.line at hline
    split at hline
    · cases hline
    · rename_i hin
      push_neg at hin
      unfold Area.max_y at hin
      simp only at hin hline
      obtain ⟨hge, hle⟩ := hin
      rw [List.get?_eq_getElem?] at hline
      by_cases hc2 : (y - minY).toNat < (rep1 ++ mid).length
      · rw [List.getElem?_append_left hc2] at hline
        rw [List.length_append] at hc2
        by_cases hc1 : (y - minY).toNat < rep1.length
        · rw [List.getElem?_append_left hc1, ← List.get?_eq_getElem?] at hline
          have hmem : l ∈ rep1 := List.get?_mem hline
          rw [hrep1] at hmem
          have hemp := List.eq_of_mem_replicate hmem
          exact absurd hcov (empty_line_no_cover l x (by rw [hemp]))
        · rw [List.getElem?_append_right (by omega), ← List.get?_eq_getElem?] at hline
          have hj : (y - minY).toNat - rep1.length < mid.length := by omega
          rw [hmid_get _ hj] at hline
          injection hline with hline
          have hy1 : back.min_y ≤ y := by omega
          have hy2 : y ≤ back.max_y := by omega
          have hyeq : back.min_y + (((y - minY).toNat - rep1.length : ℕ) : ℤ) = y := by
            omega
          rw [← hline, hyeq] at hcov
          exact ⟨hy1, hy2, hcov⟩
      · rw [List.getElem?_append_right (by omega), ← List.get?_eq_getElem?] at hline
        have hmem : l ∈ rep2 := List.get?_mem hline
        rw [hrep2] at hmem
        have hemp := List.eq_of_mem_replicate hmem
        exact absurd hcov (empty_line_no_cover l x (by rw [hemp]))
  · rintro ⟨hy1, hy2, hcov⟩
    refine ⟨cullRow back front y, ?_, hcov⟩
    unfold Area.line
    have hminmk : (Area.mk (rep1 ++ mid ++ rep2) minY).min_y = minY := rfl
    have hmaxmk : (Area.mk (rep1 ++ mid ++ rep2) minY).max_y =
        minY + ((rep1 ++ mid ++ rep2).length : ℤ) - 1 := rfl
    have hbound : ¬(y < (Area.mk (rep1 ++ mid ++ rep2) minY).min_y ∨
        (Area.mk (rep1 ++ mid ++ rep2) minY).max_y < y) := by
      rw [hminmk, hmaxmk, htot]
      omega
    rw [if_neg hbound]
    show (rep1 ++ mid ++ rep2).get? (y - minY).toNat = some (cullRow back front y)
    rw [List.get?_eq_getElem?]
    rw [List.getElem?_append_left
      (show (y - minY).toNat < (rep1 ++ mid).length by rw [List.length_append]; omega)]
    rw [List.getElem?_append_right (show rep1.length ≤ (y - minY).toNat by omega)]
    rw [← List.get?_eq_getElem?]
    rw [hmid_get _ (by omega)]
    have hyeq : back.min_y + (((y - minY).toNat - rep1.length : ℕ) : ℤ) = y := by omega
    rw [hyeq]

/-- The range merge never hides a back point that no front range covers
(irrespective of any invariant): the visible remainder always contains the
exact interval subtraction. -/
theorem cullRangesF_super : ∀ (fuel : ℕ) (bs fs : List Range),
    bs.length + fs.length ≤ fuel → ∀ x : ℤ,
    (∃ b ∈ bs, b.covers x) → (∀ f ∈ fs, ¬ f.covers x) →
    ∃ r ∈ cullRangesF fuel bs fs, r.covers x := by
  intro fuel
  induction fuel with
  | zero =>
    intro bs fs hlen x hb hf
    match bs, fs with
    | [], _ => obtain ⟨b, hb', _⟩ := hb; cases hb'
    | b :: bs, [] => exact hb
    | b :: bs, f :: fs => simp only [List.length_cons] at hlen; omega
  | succ fuel ih =>
    intro bs fs hlen x hb hf
    match bs, fs with
    | [], _ => obtain ⟨b, hb', _⟩ := hb; cases hb'
    | b :: bs, [] => exact hb
    | b :: bs, f :: fs =>
      simp only [List.length_cons] at hlen
      have hfx : ¬ f.covers x := hf f (by simp)
      have hf' : ∀ g ∈ fs, ¬ g.covers x := fun g hg => hf g (List.mem_cons_of_mem f hg)
      obtain ⟨b0, hb0, hb0x⟩ := hb
      have heq : cullRangesF (fuel + 1) (b :: bs) (f :: fs) =
          if b.hi < f.lo then b :: cullRangesF fuel bs (f :: fs)
          else if f.hi < b.lo then cullRangesF fuel (b :: bs) fs
          else (if b.lo < f.lo then [(⟨b.lo, f.lo - 1⟩ : Range)] else []) ++
            (if f.hi < b.hi then
              (⟨f.hi + 1, b.hi⟩ : Range) :: cullRangesF fuel bs fs
            else cullRangesF fuel bs (f :: fs)) := rfl
      rw [heq]
      by_cases h1 : b.hi < f.lo
      · rw [if_pos h1]
        rcases List.mem_cons.mp hb0 with rfl | hb0'
        · exact ⟨b0, by simp, hb0x⟩
        · obtain ⟨r, hr, hrx⟩ := ih bs (f :: fs)
            (by simp only [List.length_cons]; omega) x ⟨b0, hb0', hb0x⟩ hf
          exact ⟨r, List.mem_cons_of_mem b hr, hrx⟩
      · rw [if_neg h1]
        by_cases h2 : f.hi < b.lo
        · rw [if_pos h2]
          exact ih (b :: bs) fs (by simp only [List.length_cons]; omega) x
            ⟨b0, hb0, hb0x⟩ hf'
        · rw [if_neg h2]
          rcases List.mem_cons.mp hb0 with rfl | hb0'
          · obtain ⟨hxlo, hxhi⟩ := hb0x
            rcases not_and_or.mp hfx with hxf | hxf
            · push_neg at hxf
              have h3 : b0.lo < f.lo := by omega
              rw [if_pos h3]
              simp only [List.singleton_append]
              exact ⟨⟨b0.lo, f.lo - 1⟩, by simp,
                by show b0.lo ≤ x; omega, by show x ≤ f.lo - 1; omega⟩
            · push_neg at hxf
              have h4 : f.hi < b0.hi := by omega
              rw [if_pos h4]
              refine ⟨⟨f.hi + 1, b0.hi⟩, ?_,
                by show f.hi + 1 ≤ x; omega, by show x ≤ b0.hi; omega⟩
              rw [List.mem_append]
              exact Or.inr (by simp)
          · by_cases h4 : f.hi < b.hi
            · rw [if_pos h4]
              obtain ⟨r, hr, hrx⟩ := ih bs fs (by omega) x ⟨b0, hb0', hb0x⟩ hf'
              refine ⟨r, ?_, hrx⟩
              rw [List.mem_append]
              exact Or.inr (List.mem_cons_of_mem _ hr)
            · rw [if_neg h4]
              obtain ⟨r, hr, hrx⟩ := ih bs (f :: fs)
                (by simp only [List.length_cons]; omega) x ⟨b0, hb0', hb0x⟩ hf
              refine ⟨r, ?_, hrx⟩
              rw [List.mem_append]
              exact Or.inr hr

theorem Area_line_mem (a : Area) (y : ℤ) (l : Line) (h : a.line y = some l) :
    l ∈ a.lines := by
  unfold Area.line at h
  split at h
  · cases h
  · exact List.get?_mem h

theorem Area_line_bounds (a : Area) (y : ℤ) (l : Line) (h : a.line y = some l) :
    a.min_y ≤ y ∧ y ≤ a.max_y := by
  unfold Area.line at h
  split at h
  · cases h
  · rename_i hin
    push_neg at hin
    exact hin

theorem Area_covers_iff (a : Area) (y x : ℤ) (l : Line) (h : a.line y = some l) :
    a.covers y x ↔ l.covers x := by
  unfold Area.covers
  rw [h]
  constructor
  · rintro ⟨l', hl', hc⟩
    injection hl' with hl'
    rw [hl']
    exact hc
  · intro hc
    exact ⟨l, rfl, hc⟩

/-- Claim C1 (corrected): rows of the back span with no front row are
unchanged; for all rows, the culled result never covers a point the back
does not cover, and always covers every point the back covers that the
front does not (the sweep may additionally leave visible back points that a
later front range of the same row would have occluded, see
`c1_counterexample`). -/
theorem c1_cull_row_semantics (back front : Area) (y x : ℤ)
    (hb : back.Inv) (hf : front.Inv) :
    (back.min_y ≤ y → y ≤ back.max_y → front.line y = none →
      (coversO (cull back front) y x ↔ back.covers y x)) ∧
    (coversO (cull back front) y x → back.covers y x) ∧
    (back.covers y x → ¬ front.covers y x → coversO (cull back front) y x) := by
  refine ⟨?_, ?_, ?_⟩
  · intro hy1 hy2 hnone
    rw [cull_covers]
    obtain ⟨bl, hbl⟩ := Area_line_isSome back y hy1 hy2
    have hrow : cullRow back front y = bl := by
      unfold cullRow
      rw [hnone, hbl]
      rfl
    rw [hrow, Area_covers_iff back y x bl hbl]
    constructor
    · rintro ⟨_, _, hc⟩
      exact hc
    · intro hc
      exact ⟨hy1, hy2, hc⟩
  · intro hcull
    rw [cull_covers] at hcull
    obtain ⟨hy1, hy2, hc⟩ := hcull
    obtain ⟨bl, hbl⟩ := Area_line_isSome back y hy1 hy2
    rw [Area_covers_iff back y x bl hbl]
    have hblinv := hb bl (Area_line_mem back y bl hbl)
    match hfl : front.line y with
    | none =>
      have hrow : cullRow back front y = bl := by
        unfold cullRow
        rw [hfl, hbl]
        rfl
      rw [hrow] at hc
      exact hc
    | some fl =>
      have hflinv := hf fl (Area_line_mem front y fl hfl)
      have hrow : cullRow back front y = cullEqLine bl fl := by
        unfold cullRow
        rw [hfl, hbl]
        rfl
      rw [hrow] at hc
      unfold cullEqLine at hc
      split at hc
      · obtain ⟨r, hr, hrx⟩ := hc
        obtain ⟨b', hb', hlo, hhi⟩ :=
          (cullRanges_inv bl.ranges fl.ranges hblinv.1 hblinv.2
            hflinv.1 hflinv.2).2.2 r hr
        have h5 : r.lo ≤ x := hrx.1
        have h6 : x ≤ r.hi := hrx.2
        exact ⟨b', hb', by omega, by omega⟩
      · exact hc
  · intro hback hnfront
    obtain ⟨bl, hbl, hblx⟩ := hback
    obtain ⟨hy1, hy2⟩ := Area_line_bounds back y bl hbl
    rw [cull_covers]
    refine ⟨hy1, hy2, ?_⟩
    match hfl : front.line y with
    | none =>
      have hrow : cullRow back front y = bl := by
        unfold cullRow
        rw [hfl, hbl]
        rfl
      rw [hrow]
      exact hblx
    | some fl =>
      have hnfl : ∀ f ∈ fl.ranges, ¬ f.covers x := by
        intro f hfr hfc
        exact hnfront ((Area_covers_iff front y x fl hfl).mpr ⟨f, hfr, hfc⟩)
      have hrow : cullRow back front y = cullEqLine bl fl := by
        unfold cullRow
        rw [hfl, hbl]
        rfl
      rw [hrow]
      unfold cullEqLine
      split
      · exact cullRangesF_super _ bl.ranges fl.ranges (le_refl _) x hblx hnfl
      · exact hblx

/-- Counterexample to the exact interval subtraction claimed for shared
rows: with back row `[0, 10]` and front rows `[2, 3]` and `[5, 6]`, the
culled row still covers `x = 5`, a point the front covers (the merge
advances past the second front range when it emits the remainder
`[4, 10]`). -/
theorem c1_counterexample :
    coversO (cull (Area.mk [⟨[⟨0, 10⟩]⟩] 0) (Area.mk [⟨[⟨2, 3⟩, ⟨5, 6⟩]⟩] 0)) 0 5 ∧
      (Area.mk [⟨[⟨2, 3⟩, ⟨5, 6⟩]⟩] 0).covers 0 5 ∧
      (Area.mk [⟨[⟨0, 10⟩]⟩] 0).covers 0 5 := by decide

/-- Witness for C1 at a two-row back against a one-row front. -/
theorem c1_cull_row_semantics_witness :
    (coversO (cull (Area.mk [⟨[⟨0, 10⟩]⟩, ⟨[⟨0, 10⟩]⟩] 0) (Area.mk [⟨[⟨2, 3⟩]⟩] 0)) 1 5 ↔
      (Area.mk [⟨[⟨0, 10⟩]⟩, ⟨[⟨0, 10⟩]⟩] 0).covers 1 5) ∧
    coversO (cull (Area.mk [⟨[⟨0, 10⟩]⟩, ⟨[⟨0, 10⟩]⟩] 0) (Area.mk [⟨[⟨2, 3⟩]⟩] 0)) 0 7 :=
  ⟨(c1_cull_row_semantics (Area.mk [⟨[⟨0, 10⟩]⟩, ⟨[⟨0, 10⟩]⟩] 0)
      (Area.mk [⟨[⟨2, 3⟩]⟩] 0) 1 5 (by decide) (by decide)).1
      (by decide) (by decide) (by decide),
   (c1_cull_row_semantics (Area.mk [⟨[⟨0, 10⟩]⟩, ⟨[⟨0, 10⟩]⟩] 0)
      (Area.mk [⟨[⟨2, 3⟩]⟩] 0) 0 7 (by decide) (by decide)).2.2
      (by decide) (by decide)⟩

/-!
Claim C4: coverage monotonicity under `cull`.  Coverage of an invariant line
is the cardinality of its covered set, which the merge only shrinks.
-/

theorem mem_rangesCovered (rs : List Range) (x : ℤ) :
    x ∈ rangesCovered rs ↔ ∃ r ∈ rs, r.covers x := by
  induction rs with
  | nil => simp [rangesCovered]
  | cons r rs ih =>
    unfold rangesCovered
    rw [Finset.mem_union, Finset.mem_Icc, ih]
    constructor
    · rintro (h | ⟨r', hr', hc⟩)
      · exact ⟨r, by simp, h⟩
      · exact ⟨r', List.mem_cons_of_mem r hr', hc⟩
    · rintro ⟨r', hr', hc⟩
      rcases List.mem_cons.mp hr' with rfl | hr'
      · exact Or.inl ⟨hc.1, hc.2⟩
      · exact Or.inr ⟨r', hr', hc⟩

theorem rangesCovered_card (rs : List Range) (hc : List.Chain' RangeGap rs)
    (hw : ∀ r ∈ rs, r.WF) : (Line.mk rs).coverage = (rangesCovered rs).card := by
  induction rs with
  | nil => rfl
  | cons r rs ih =>
    unfold rangesCovered
    have hdisj : Disjoint (Finset.Icc r.lo r.hi) (rangesCovered rs) := by
      rw [Finset.disjoint_left]
      intro x hx hx'
      rw [Finset.mem_Icc] at hx
      rw [mem_rangesCovered] at hx'
      obtain ⟨r', hr', hc'⟩ := hx'
      have hgap := chain_gap_head r rs hc
        (fun s hs => hw s (List.mem_cons_of_mem r hs)) r' hr'
      have h1 : r'.lo ≤ x := hc'.1
      omega
    rw [Finset.card_union_of_disjoint hdisj]
    have hcov : (Line.mk (r :: rs)).coverage =
        ((r.hi - r.lo).toNat + 1) + (Line.mk rs).coverage := by
      unfold Line.coverage
      rw [List.map_cons, List.sum_cons]
    rw [hcov, ih hc.tail (fun s hs => hw s (List.mem_cons_of_mem r hs)),
      Int.card_Icc]
    have hrwf : r.lo ≤ r.hi := hw r (by simp)
    omega

theorem line_coverage_mono (l1 l2 : Line) (h1 : l1.Inv) (h2 : l2.Inv)
    (hsub : ∀ x, l1.covers x → l2.covers x) : l1.coverage ≤ l2.coverage := by
  rw [show l1.coverage = (Line.mk l1.ranges).coverage from rfl,
    rangesCovered_card l1.ranges h1.1 h1.2,
    show l2.coverage = (Line.mk l2.ranges).coverage from rfl,
    rangesCovered_card l2.ranges h2.1 h2.2]
  apply Finset.card_le_card
  intro x hx
  rw [mem_rangesCovered] at hx ⊢
  exact hsub x hx

theorem intRows_get? (lo hi : ℤ) (j : ℕ) (hj : j < (hi + 1 - lo).toNat) :
    (intRows lo hi).get? j = some (lo + (j : ℤ)) := by
  unfold intRows
  rw [List.get?_eq_getElem?, List.getElem?_map, List.getElem?_range hj]
  rfl

theorem lines_eq_map_rows (a : Area) :
    a.lines = (intRows a.min_y a.max_y).map (fun y => (a.line y).getD ⟨[]⟩) := by
  have hlen : (a.max_y + 1 - a.min_y).toNat = a.lines.length := by
    unfold Area.max_y
    omega
  apply List.ext_get?
  intro n
  by_cases hn : n < a.lines.length
  · rw [List.get?_map, intRows_get? _ _ n (by omega)]
    have hline : a.line (a.min_y + (n : ℤ)) = a.lines.get? n := by
      unfold Area.line
      rw [if_neg (by unfold Area.max_y; push_neg; constructor <;> omega)]
      have harith : (a.min_y + (n : ℤ) - a.min_y).toNat = n := by omega
      rw [harith]
    rw [Option.map_some', hline, List.get?_eq_get hn]
    rfl
  · rw [List.get?_eq_none.mpr (by omega), List.get?_eq_none.mpr ?_]
    rw [List.length_map]
    unfold intRows
    rw [List.length_map, List.length_range]
    omega

theorem Area_coverage_rows (a : Area) :
    a.coverage =
      ((intRows a.min_y a.max_y).map (fun y => ((a.line y).getD ⟨[]⟩).coverage)).sum := by
  unfold Area.coverage
  conv_lhs => rw [lines_eq_map_rows a]
  rw [List.map_map]
  rfl

theorem cull_coverage (back front : Area) :
    coverageO (cull back front) =
      ((intRows back.min_y back.max_y).map
        (fun y => (cullRow back front y).coverage)).sum := by
  rw [cull_eq, optimize_coverage]
  unfold Area.coverage
  simp only [List.map_append, List.sum_append, List.map_map, List.map_replicate]
  have hzero : Line.coverage (⟨[]⟩ : Line) = 0 := rfl
  rw [hzero]
  simp [Function.comp_def]

theorem cullRow_coverage_le (back front : Area) (hb : back.Inv) (hf : front.Inv)
    (y : ℤ) : (cullRow back front y).coverage ≤ ((back.line y).getD ⟨[]⟩).coverage := by
  match hfl : front.line y with
  | none =>
    have hrow : cullRow back front y = (back.line y).getD ⟨[]⟩ := by
      unfold cullRow
      rw [hfl]
    rw [hrow]
  | some fl =>
    have hrow : cullRow back front y = cullEqLine ((back.line y).getD ⟨[]⟩) fl := by
      unfold cullRow
      rw [hfl]
    rw [hrow]
    unfold cullEqLine
    split
    · have hbli := line_getD_inv back hb y
      have hfli := hf fl (Area_line_mem front y fl hfl)
      have hcr := cullRanges_inv _ _ hbli.1 hbli.2 hfli.1 hfli.2
      apply line_coverage_mono _ _ ⟨hcr.1, hcr.2.1⟩ hbli
      intro x hx
      obtain ⟨r, hr, hrx⟩ := hx
      obtain ⟨b', hb', hlo, hhi⟩ := hcr.2.2 r hr
      have h5 : r.lo ≤ x := hrx.1
      have h6 : x ≤ r.hi := hrx.2
      exact ⟨b', hb', by omega, by omega⟩
    · exact le_refl _

theorem cull_rows_unchanged (back front : Area)
    (hni : back.intersects front = false) (y : ℤ) (hy1 : back.min_y ≤ y)
    (hy2 : y ≤ back.max_y) : cullRow back front y = (back.line y).getD ⟨[]⟩ := by
  match hfl : front.line y with
  | none =>
    unfold cullRow
    rw [hfl]
  | some fl =>
    obtain ⟨hfy1, hfy2⟩ := Area_line_bounds front y fl hfl
    unfold Area.intersects at hni
    split at hni
    · rename_i hdis
      rcases hdis with h | h <;> omega
    · have hy_mem : y ∈ intRows (max back.min_y front.min_y)
          (min back.max_y front.max_y) := by
        unfold intRows
        rw [List.mem_map]
        have h1 : max back.min_y front.min_y ≤ y := max_le hy1 hfy1
        have h2 : y ≤ min back.max_y front.max_y := le_min hy2 hfy2
        refine ⟨(y - max back.min_y front.min_y).toNat, ?_, by omega⟩
        rw [List.mem_range]
        omega
      have hline : (((back.line y).getD ⟨[]⟩).intersects
          ((front.line y).getD ⟨[]⟩)) = false := by
        by_contra hcon
        rw [Bool.not_eq_false] at hcon
        have hany : (intRows (max back.min_y front.min_y)
            (min back.max_y front.max_y)).any
            (fun y => ((back.line y).getD ⟨[]⟩).intersects
              ((front.line y).getD ⟨[]⟩)) = true :=
          List.any_eq_true.mpr ⟨y, hy_mem, hcon⟩
        rw [hany] at hni
        exact absurd hni (by decide)
      rw [hfl, Option.getD_some] at hline
      have hrow : cullRow back front y = cullEqLine ((back.line y).getD ⟨[]⟩) fl := by
        unfold cullRow
        rw [hfl]
      rw [hrow]
      unfold cullEqLine
      rw [if_neg (by rw [hline]; exact Bool.false_ne_true)]

/-- Claim C4 (corrected): culling never increases coverage, and a false
`intersects` prefilter guarantees equal coverage; the converse fails, see
`c4_counterexample`. -/
theorem c4_coverage_monotonicity (back front : Area)
    (hb : back.Inv) (hf : front.Inv) :
    coverageO (cull back front) ≤ back.coverage ∧
    (back.intersects front = false →
      coverageO (cull back front) = back.coverage) := by
  have hcc := cull_coverage back front
  have hbc := Area_coverage_rows back
  constructor
  · rw [hcc, hbc]
    apply List.sum_le_sum
    intro y hy
    exact cullRow_coverage_le back front hb hf y
  · intro hni
    rw [hcc, hbc]
    congr 1
    apply List.map_congr_left
    intro y hy
    obtain ⟨hy1, hy2⟩ := intRows_mem _ _ _ hy
    rw [cull_rows_unchanged back front hni y hy1 hy2]

/-- Counterexample to the claimed equivalence: overlapping extents with
disjoint ranges give `intersects = true` while culling removes nothing, so
coverage equality does not imply a false `intersects`. -/
theorem c4_counterexample :
    coverageO (cull (Area.mk [⟨[⟨0, 1⟩, ⟨9, 10⟩]⟩] 0) (Area.mk [⟨[⟨4, 5⟩]⟩] 0)) =
      (Area.mk [⟨[⟨0, 1⟩, ⟨9, 10⟩]⟩] 0).coverage ∧
    (Area.mk [⟨[⟨0, 1⟩, ⟨9, 10⟩]⟩] 0).intersects (Area.mk [⟨[⟨4, 5⟩]⟩] 0) = true := by
  decide

/-- Witness for C4 at concrete areas with disjoint extents. -/
theorem c4_coverage_monotonicity_witness :
    coverageO (cull (Area.mk [⟨[⟨0, 10⟩]⟩] 0) (Area.mk [⟨[⟨20, 30⟩]⟩] 0)) ≤
      (Area.mk [⟨[⟨0, 10⟩]⟩] 0).coverage ∧
    coverageO (cull (Area.mk [⟨[⟨0, 10⟩]⟩] 0) (Area.mk [⟨[⟨20, 30⟩]⟩] 0)) =
      (Area.mk [⟨[⟨0, 10⟩]⟩] 0).coverage :=
  ⟨(c4_coverage_monotonicity (Area.mk [⟨[⟨0, 10⟩]⟩] 0) (Area.mk [⟨[⟨20, 30⟩]⟩] 0)
      (by decide) (by decide)).1,
   (c4_coverage_monotonicity (Area.mk [⟨[⟨0, 10⟩]⟩] 0) (Area.mk [⟨[⟨20, 30⟩]⟩] 0)
      (by decide) (by decide)).2 (by decide)⟩

end Flowers
